import Mathlib

/-!
Verification of the script-sandbox / host-guest bridge subsystem of the backend
repository. The Python sources under `src/backend/src` are shallowly embedded:

* Python dicts are association lists (`List (κ × α)`) with Python's
  assignment semantics (replace in place, append new keys at the end);
* mutable Python objects that are shared by reference (the dicts exposed to the
  guest, their nested sub-dicts) live in an explicit heap `Heap := List HDict`,
  addresses are list indices, and allocation appends;
* JSON-like immutable data (tool schemas, guest-supplied argument trees,
  `json.dumps` inputs) is the pure tree type `JVal`;
* fallible paths return `Except`.

Embedded modules: `utils/script_wrapper.py`, `utils/tool_args_utils.py`,
`tools/quickjs/dict_proxy - 副本.py`, `tools/quickjs/quickjs_tool_thread.py`,
`tools/quickjs/call_tool.py`.
-/

set_option autoImplicit false

namespace Backend

/-! ## Association-list primitives (Python `dict` semantics) -/

/-- Python `m.get(key)` / `m[key]`: value of the first entry with this key. -/
def lookupK {κ α : Type} [DecidableEq κ] : List (κ × α) → κ → Option α
  | [], _ => none
  | (k, v) :: rest, key => if k = key then some v else lookupK rest key

/-- Python `key in m`. -/
def hasK {κ α : Type} [DecidableEq κ] (m : List (κ × α)) (key : κ) : Bool :=
  (lookupK m key).isSome

/-- Python `m[key] = v`: replace the entry in place if the key is present,
otherwise append the new entry at the end (dict insertion order). -/
def setK {κ α : Type} [DecidableEq κ] : List (κ × α) → κ → α → List (κ × α)
  | [], key, v => [(key, v)]
  | (k, w) :: rest, key, v =>
      if k = key then (k, v) :: rest else (k, w) :: setK rest key v

/-- Python `del m[key]` (removes the entry; no-op when absent, callers guard). -/
def eraseK {κ α : Type} [DecidableEq κ] : List (κ × α) → κ → List (κ × α)
  | [], _ => []
  | (k, w) :: rest, key => if k = key then rest else (k, w) :: eraseK rest key

/-- Python `list(m.keys())`. -/
def keysK {κ α : Type} (m : List (κ × α)) : List κ := m.map (·.1)

/-- Python `m.update(other)`: assign every entry of `other` into `m`, in order. -/
def updateK {κ α : Type} [DecidableEq κ] (m other : List (κ × α)) : List (κ × α) :=
  other.foldl (fun acc kv => setK acc kv.1 kv.2) m

/-- Keys are pairwise distinct, as they always are for a real Python dict. -/
def nodupKeys {κ α : Type} (m : List (κ × α)) : Prop := (keysK m).Nodup

instance {κ α : Type} [DecidableEq κ] (m : List (κ × α)) : Decidable (nodupKeys m) :=
  inferInstanceAs (Decidable (keysK m).Nodup)

/-! ## Substring test (Python `pat in s`) -/

/-- First list starts the second one. -/
def leadsList : List Char → List Char → Bool
  | [], _ => true
  | _ :: _, [] => false
  | a :: as, b :: bs => a = b && leadsList as bs

/-- Some suffix of the second list starts with the first list. -/
def hasSubList (pat : List Char) : List Char → Bool
  | [] => pat.isEmpty
  | c :: rest => leadsList pat (c :: rest) || hasSubList pat rest

/-- Python `pat in s` for strings. -/
def containsSub (s pat : String) : Bool := hasSubList pat.data s.data

/-! ## JSON-like value trees -/

/-- Immutable JSON-like values: tool schemas, guest-supplied argument trees and
`json.dumps` inputs. Numbers are modelled as integers (the subsystem only ever
moves integral JSON numbers; floats are out of scope). -/
inductive JVal : Type where
  | null
  | bool (b : Bool)
  | num (n : Int)
  | str (s : String)
  | arr (xs : List JVal)
  | obj (fields : List (String × JVal))
deriving Repr

mutual

/-- Boolean equality of JSON-like trees. -/
def beqJV : JVal → JVal → Bool
  | .null, .null => true
  | .bool a, .bool b => a = b
  | .num a, .num b => a = b
  | .str a, .str b => a = b
  | .arr xs, .arr ys => beqJVL xs ys
  | .obj fs, .obj gs => beqJVF fs gs
  | _, _ => false

/-- Boolean equality of tree lists. -/
def beqJVL : List JVal → List JVal → Bool
  | [], [] => true
  | x :: xs, y :: ys => beqJV x y && beqJVL xs ys
  | _, _ => false

/-- Boolean equality of field lists. -/
def beqJVF : List (String × JVal) → List (String × JVal) → Bool
  | [], [] => true
  | (k, x) :: xs, (l, y) :: ys => k = l && beqJV x y && beqJVF xs ys
  | _, _ => false

end

mutual

theorem beqJV_iff : ∀ (a b : JVal), beqJV a b = true ↔ a = b
  | .null, b => by cases b <;> simp [beqJV]
  | .bool _, b => by cases b <;> simp [beqJV]
  | .num _, b => by cases b <;> simp [beqJV]
  | .str _, b => by cases b <;> simp [beqJV]
  | .arr xs, b => by
      cases b <;> simp [beqJV]
      case arr ys => exact beqJVL_iff xs ys
  | .obj fs, b => by
      cases b <;> simp [beqJV]
      case obj gs => exact beqJVF_iff fs gs

theorem beqJVL_iff : ∀ (xs ys : List JVal), beqJVL xs ys = true ↔ xs = ys
  | [], ys => by cases ys <;> simp [beqJVL]
  | x :: xs, ys => by
      cases ys with
      | nil => simp [beqJVL]
      | cons y ys => simp [beqJVL, beqJV_iff x y, beqJVL_iff xs ys]

theorem beqJVF_iff : ∀ (xs ys : List (String × JVal)), beqJVF xs ys = true ↔ xs = ys
  | [], ys => by cases ys <;> simp [beqJVF]
  | (k, x) :: xs, ys => by
      cases ys with
      | nil => simp [beqJVF]
      | cons y ys =>
          obtain ⟨l, y⟩ := y
          simp [beqJVF, beqJV_iff x y, beqJVF_iff xs ys, and_assoc]

end

instance : DecidableEq JVal := fun a b => decidable_of_iff _ (beqJV_iff a b)

/-- Field lookup on an object-shaped `JVal`; `none` on non-objects. -/
def getJ (v : JVal) (key : String) : Option JVal :=
  match v with
  | .obj fs => lookupK fs key
  | _ => none

/-- Python `key in schema` for an object-shaped `JVal`. -/
def hasJ (v : JVal) (key : String) : Bool := (getJ v key).isSome

/-! ### `json.dumps` (default separators, `ensure_ascii=False`) -/

/-- Two lowercase hex digits of a byte. -/
def hexByte (n : Nat) : String :=
  let dig := fun (d : Nat) =>
    String.singleton (if d < 10 then Char.ofNat (48 + d) else Char.ofNat (87 + d))
  dig (n / 16 % 16) ++ dig (n % 16)

/-- JSON string escaping as `json.dumps(..., ensure_ascii=False)` performs it. -/
def escChar (c : Char) : String :=
  if c = '\\' then "\\\\"
  else if c = '"' then "\\\""
  else if c = '\n' then "\\n"
  else if c = '\t' then "\\t"
  else if c = '\r' then "\\r"
  else if c = Char.ofNat 8 then "\\b"
  else if c = Char.ofNat 12 then "\\f"
  else if c.toNat < 32 then "\\u00" ++ hexByte c.toNat
  else String.singleton c

/-- Escape every character of a string. -/
def escStr (s : String) : String := s.data.foldl (fun acc c => acc ++ escChar c) ""

mutual

/-- Embeds Python `json.dumps(v, ensure_ascii=False)` with the default
separators `", "` and `": "`. -/
def dumpsJ : JVal → String
  | .null => "null"
  | .bool true => "true"
  | .bool false => "false"
  | .num n => toString n
  | .str s => "\"" ++ escStr s ++ "\""
  | .arr xs => "[" ++ dumpsArr xs ++ "]"
  | .obj fs => "\x7b" ++ dumpsObj fs ++ "\x7d"

/-- Comma-joined serialization of array elements. -/
def dumpsArr : List JVal → String
  | [] => ""
  | [x] => dumpsJ x
  | x :: y :: rest => dumpsJ x ++ ", " ++ dumpsArr (y :: rest)

/-- Comma-joined serialization of object entries. -/
def dumpsObj : List (String × JVal) → String
  | [] => ""
  | [(k, v)] => "\"" ++ escStr k ++ "\": " ++ dumpsJ v
  | (k, v) :: e :: rest => "\"" ++ escStr k ++ "\": " ++ dumpsJ v ++ ", " ++ dumpsObj (e :: rest)

end

/-! ## Heap of mutable Python dicts

Mutable dicts shared by reference (contexts exposed to the guest and their
nested sub-dicts) live in an explicit heap. An address is an index into the
heap list; allocation appends. Python lists are kept as pure values (their
object identity plays no role in the claims under verification). -/

/-- Runtime Python values as seen by the bridge code. `ref` points to a dict
in the heap; scalars and lists are immediate. -/
inductive PyVal : Type where
  | none
  | bool (b : Bool)
  | int (n : Int)
  | str (s : String)
  | ref (a : Nat)
  | list (xs : List PyVal)
deriving Repr

/-- A heap-resident dict: association list of fields. -/
abbrev HDict : Type := List (String × PyVal)

/-- The heap: dict number `a` lives at index `a`. -/
abbrev Heap : Type := List HDict

/-- Allocate a fresh dict, returning its address. -/
def allocH (h : Heap) (d : HDict) : Nat × Heap := (h.length, h ++ [d])

/-- Read the dict at an address. -/
def readH (h : Heap) (a : Nat) : Option HDict := h.get? a

/-- Overwrite the dict at an (existing) address. -/
def writeH (h : Heap) (a : Nat) (d : HDict) : Heap := h.set a d

/-- Heap extension: every dict present in `h` is unchanged in `h2`. Functions
that only allocate (never write) produce extensions of their input heap. -/
def extendsH (h h2 : Heap) : Prop := ∀ a d, readH h a = some d → readH h2 a = some d

theorem extendsH_refl (h : Heap) : extendsH h h := fun _ _ hd => hd

theorem extendsH_trans {h1 h2 h3 : Heap} (e12 : extendsH h1 h2) (e23 : extendsH h2 h3) :
    extendsH h1 h3 := fun a d hd => e23 a d (e12 a d hd)

theorem extendsH_alloc (h : Heap) (d : HDict) : extendsH h (allocH h d).2 := by
  intro a d0 hd
  have hlt : a < h.length := by
    by_contra hge
    rw [readH, List.get?_eq_none.mpr (Nat.le_of_not_lt hge)] at hd
    exact Option.noConfusion hd
  rw [readH] at hd ⊢
  simp only [allocH, List.get?_eq_getElem?] at hd ⊢
  rw [List.getElem?_append_left hlt]
  exact hd

theorem extendsH_length {h h2 : Heap} (e : extendsH h h2) : h.length ≤ h2.length := by
  rcases Nat.eq_zero_or_pos h.length with h0 | hpos
  · omega
  · have hlt : h.length - 1 < h.length := by omega
    obtain ⟨d0, hd0⟩ : ∃ d0, readH h (h.length - 1) = some d0 := by
      rw [readH, List.get?_eq_get hlt]; exact ⟨_, rfl⟩
    have h2some := e _ _ hd0
    have hlt2 : h.length - 1 < h2.length := (List.get?_eq_some.mp h2some).1
    omega

/-! Materialization of a JSON-like tree into runtime values: nested objects
become freshly allocated heap dicts. This models the conversion that turns a
guest-produced (or schema-carried) JSON tree into Python dicts and scalars. -/

mutual

def materializeV : JVal → Heap → PyVal × Heap
  | .null, h => (.none, h)
  | .bool b, h => (.bool b, h)
  | .num n, h => (.int n, h)
  | .str s, h => (.str s, h)
  | .arr xs, h =>
      let (xs2, h1) := materializeL xs h
      (.list xs2, h1)
  | .obj fs, h =>
      let (fs2, h1) := materializeF fs h
      let (a, h2) := allocH h1 fs2
      (.ref a, h2)

def materializeL : List JVal → Heap → List PyVal × Heap
  | [], h => ([], h)
  | x :: rest, h =>
      let (v, h1) := materializeV x h
      let (vs, h2) := materializeL rest h1
      (v :: vs, h2)

def materializeF : List (String × JVal) → Heap → HDict × Heap
  | [], h => ([], h)
  | (k, x) :: rest, h =>
      let (v, h1) := materializeV x h
      let (vs, h2) := materializeF rest h1
      ((k, v) :: vs, h2)

end

mutual

theorem materializeV_extends : ∀ (j : JVal) (h : Heap), extendsH h (materializeV j h).2
  | .null, _ => extendsH_refl _
  | .bool _, _ => extendsH_refl _
  | .num _, _ => extendsH_refl _
  | .str _, _ => extendsH_refl _
  | .arr xs, h => by
      have ih := materializeL_extends xs h
      simp only [materializeV]
      exact ih
  | .obj fs, h => by
      have ih := materializeF_extends fs h
      simp only [materializeV]
      exact extendsH_trans ih (extendsH_alloc _ _)

theorem materializeL_extends : ∀ (xs : List JVal) (h : Heap), extendsH h (materializeL xs h).2
  | [], _ => extendsH_refl _
  | x :: rest, h => by
      have ih1 := materializeV_extends x h
      have ih2 := materializeL_extends rest (materializeV x h).2
      simp only [materializeL]
      exact extendsH_trans ih1 ih2

theorem materializeF_extends : ∀ (fs : List (String × JVal)) (h : Heap),
    extendsH h (materializeF fs h).2
  | [], _ => extendsH_refl _
  | (k, x) :: rest, h => by
      have ih1 := materializeV_extends x h
      have ih2 := materializeF_extends rest (materializeV x h).2
      simp only [materializeF]
      exact extendsH_trans ih1 ih2

end

/-- Keys of a materialized field list are the keys of the source tree. -/
theorem materializeF_keys : ∀ (fs : List (String × JVal)) (h : Heap),
    keysK (materializeF fs h).1 = fs.map (·.1)
  | [], _ => rfl
  | (k, x) :: rest, h => by
      simp only [materializeF, keysK, List.map]
      exact congrArg _ (materializeF_keys rest (materializeV x h).2)

/-! ## Guest-to-host value conversion (`DictProxy._unwrap_value`)

A guest-supplied value reaches the Python callbacks as a freshly converted
tree of dicts, lists and scalars; `DictProxy._unwrap_value` then returns any
dict carrying a `"__proxy_id"` marker as-is and rebuilds plain dicts
entry-by-entry. The two phases are composed here: both branches materialize
the tree into fresh heap dicts, and the branch structure of the source is
kept so the marker case can be traced. (The `isinstance(value, DictProxy)`
branch of `_unwrap_value` is unreachable for guest-supplied values and has no
counterpart in the guest-value tree.) -/

mutual

/-- Embeds `DictProxy._unwrap_value` applied to a guest-supplied value
(`dict_proxy - 副本.py`, lines 122-142), composed with the conversion of the
guest value into Python data. -/
def unwrapV : JVal → Heap → PyVal × Heap
  | .obj fs, h =>
      if hasK fs "__proxy_id" then
        let (fs2, h1) := materializeF fs h
        let (a, h2) := allocH h1 fs2
        (.ref a, h2)
      else
        let (fs2, h1) := unwrapF fs h
        let (a, h2) := allocH h1 fs2
        (.ref a, h2)
  | .arr xs, h =>
      let (xs2, h1) := unwrapL xs h
      (.list xs2, h1)
  | .null, h => (.none, h)
  | .bool b, h => (.bool b, h)
  | .num n, h => (.int n, h)
  | .str s, h => (.str s, h)

/-- List case of `_unwrap_value`. -/
def unwrapL : List JVal → Heap → List PyVal × Heap
  | [], h => ([], h)
  | x :: rest, h =>
      let (v, h1) := unwrapV x h
      let (vs, h2) := unwrapL rest h1
      (v :: vs, h2)

/-- Dict-comprehension case of `_unwrap_value`. -/
def unwrapF : List (String × JVal) → Heap → HDict × Heap
  | [], h => ([], h)
  | (k, x) :: rest, h =>
      let (v, h1) := unwrapV x h
      let (vs, h2) := unwrapF rest h1
      ((k, v) :: vs, h2)

end

mutual

theorem unwrapV_extends : ∀ (j : JVal) (h : Heap), extendsH h (unwrapV j h).2
  | .null, _ => extendsH_refl _
  | .bool _, _ => extendsH_refl _
  | .num _, _ => extendsH_refl _
  | .str _, _ => extendsH_refl _
  | .arr xs, h => by
      have ih := unwrapL_extends xs h
      simp only [unwrapV]
      exact ih
  | .obj fs, h => by
      have ihm := materializeF_extends fs h
      have ihu := unwrapF_extends fs h
      simp only [unwrapV]
      by_cases hmk : hasK fs "__proxy_id"
      · simp only [hmk, if_pos]
        exact extendsH_trans ihm (extendsH_alloc _ _)
      · simp only [hmk, if_neg, Bool.false_eq_true]
        exact extendsH_trans ihu (extendsH_alloc _ _)

theorem unwrapL_extends : ∀ (xs : List JVal) (h : Heap), extendsH h (unwrapL xs h).2
  | [], _ => extendsH_refl _
  | x :: rest, h => by
      have ih1 := unwrapV_extends x h
      have ih2 := unwrapL_extends rest (unwrapV x h).2
      simp only [unwrapL]
      exact extendsH_trans ih1 ih2

theorem unwrapF_extends : ∀ (fs : List (String × JVal)) (h : Heap),
    extendsH h (unwrapF fs h).2
  | [], _ => extendsH_refl _
  | (k, x) :: rest, h => by
      have ih1 := unwrapV_extends x h
      have ih2 := unwrapF_extends rest (unwrapV x h).2
      simp only [unwrapF]
      exact extendsH_trans ih1 ih2

end

/-! ## DictProxy (`dict_proxy - 副本.py`)

A `DictProxy` wraps one heap dict: it records the backing address, its
object id, and the child cache `_children_cache`. Cached entries are wrapped
values (scalars pass through, nested dicts become child proxies, lists are
wrapped element-wise). Python keys the cache by `id(value)` for dict and list
values and by the string key otherwise; dict identity is the heap address,
and list identity is approximated by the list value (no claim under
verification depends on list caching). -/

/-- Cache key of `_children_cache`: `id(value)` for dicts (heap address) and
lists (value, see above), the string key otherwise. -/
inductive CacheKey : Type where
  | addr (a : Nat)
  | strKey (s : String)
  | listVal (xs : List PyVal)

mutual

/-- Result of `DictProxy._wrap_value`: scalars pass through, dicts become
child proxies, lists are wrapped element-wise. -/
inductive Wrapped : Type where
  | plain (v : PyVal)
  | pxy (p : DictProxyV)
  | wlist (xs : List Wrapped)

/-- A `DictProxy`: backing dict address (`_data`), object id (`_obj_id`) and
child cache (`_children_cache`). -/
inductive DictProxyV : Type where
  | mk (data : Nat) (objId : String) (cache : List (CacheKey × Wrapped))

end

/-- Backing address of a proxy. -/
def DictProxyV.data : DictProxyV → Nat
  | .mk d _ _ => d

/-- Object id of a proxy. -/
def DictProxyV.objId : DictProxyV → String
  | .mk _ o _ => o

/-- Child cache of a proxy. -/
def DictProxyV.cache : DictProxyV → List (CacheKey × Wrapped)
  | .mk _ _ c => c

mutual

/-- Boolean equality of runtime values. -/
def beqPV : PyVal → PyVal → Bool
  | .none, .none => true
  | .bool a, .bool b => a = b
  | .int a, .int b => a = b
  | .str a, .str b => a = b
  | .ref a, .ref b => a = b
  | .list xs, .list ys => beqPVL xs ys
  | _, _ => false

/-- Boolean equality of runtime value lists. -/
def beqPVL : List PyVal → List PyVal → Bool
  | [], [] => true
  | x :: xs, y :: ys => beqPV x y && beqPVL xs ys
  | _, _ => false

end

mutual

theorem beqPV_iff : ∀ (a b : PyVal), beqPV a b = true ↔ a = b
  | .none, b => by cases b <;> simp [beqPV]
  | .bool _, b => by cases b <;> simp [beqPV]
  | .int _, b => by cases b <;> simp [beqPV]
  | .str _, b => by cases b <;> simp [beqPV]
  | .ref _, b => by cases b <;> simp [beqPV]
  | .list xs, b => by
      cases b <;> simp [beqPV]
      case list ys => exact beqPVL_iff xs ys

theorem beqPVL_iff : ∀ (xs ys : List PyVal), beqPVL xs ys = true ↔ xs = ys
  | [], ys => by cases ys <;> simp [beqPVL]
  | x :: xs, ys => by
      cases ys with
      | nil => simp [beqPVL]
      | cons y ys => simp [beqPVL, beqPV_iff x y, beqPVL_iff xs ys]

end

instance : DecidableEq PyVal := fun a b => decidable_of_iff _ (beqPV_iff a b)

instance : DecidableEq CacheKey := fun a b => by
  cases a <;> cases b <;>
    first
      | (apply isFalse; intro hcontra; exact CacheKey.noConfusion hcontra)
      | (rename_i x y
         exact if hxy : x = y then isTrue (by rw [hxy]) else
           isFalse (fun hcontra => hxy (by cases hcontra; rfl)))

mutual

/-- Embeds `DictProxy._wrap_value` (`dict_proxy - 副本.py`, lines 105-120):
child proxies get the id `f"{self._obj_id}.child_{id(value)}"` and an empty
cache. -/
def wrapValue (parentId : String) : PyVal → Wrapped
  | .ref a => .pxy (.mk a (parentId ++ ".child_" ++ toString a) [])
  | .list xs => .wlist (wrapListV parentId xs)
  | v => .plain v

/-- List case of `_wrap_value`. -/
def wrapListV (parentId : String) : List PyVal → List Wrapped
  | [] => []
  | x :: rest => wrapValue parentId x :: wrapListV parentId rest

end

/-- Cache key chosen by `DictProxy.get` (line 42): `id(value)` for dicts and
lists, the string key otherwise. -/
def cacheKeyFor (v : PyVal) (key : String) : CacheKey :=
  match v with
  | .ref a => .addr a
  | .list xs => .listVal xs
  | _ => .strKey key

/-- Embeds `DictProxy.get` (`dict_proxy - 副本.py`, lines 31-48). Returns the
wrapped value and the proxy with its (possibly updated) cache; the in-place
cache mutation of the source becomes an updated proxy value. -/
def proxyGet (p : DictProxyV) (h : Heap) (key : String) : Wrapped × DictProxyV :=
  let value : PyVal := (lookupK ((readH h p.data).getD []) key).getD .none
  let ck := cacheKeyFor value key
  match lookupK p.cache ck with
  | some w => (w, p)
  | none =>
      let result := wrapValue p.objId value
      if ck ≠ .strKey key then
        (result, .mk p.data p.objId (setK p.cache ck result))
      else
        (result, p)

/-- Embeds `DictProxy.set` (lines 50-57): `self._data[key] = self._unwrap_value(value)`. -/
def proxySet (p : DictProxyV) (h : Heap) (key : String) (value : JVal) : Heap :=
  let (pv, h1) := unwrapV value h
  writeH h1 p.data (setK ((readH h1 p.data).getD []) key pv)

/-- Embeds `DictProxy.delete` (lines 59-71). -/
def proxyDelete (p : DictProxyV) (h : Heap) (key : String) : Bool × Heap :=
  let d := (readH h p.data).getD []
  if hasK d key then (true, writeH h p.data (eraseK d key)) else (false, h)

/-- Embeds `DictProxy.keys` (lines 73-79). -/
def proxyKeys (p : DictProxyV) (h : Heap) : List String :=
  keysK ((readH h p.data).getD [])

/-- Embeds `DictProxy.has` (lines 81-90). -/
def proxyHas (p : DictProxyV) (h : Heap) (key : String) : Bool :=
  hasK ((readH h p.data).getD []) key

/-! ## DictProxyManager (`dict_proxy - 副本.py`, lines 145-225) -/

/-- The proxy registry: forward table `_proxies` (id to proxy) and reverse
table `_reverse_ref` (backing-dict identity to id). -/
structure Manager : Type where
  proxies : List (String × DictProxyV)
  reverseRef : List (Nat × String)

/-- Embeds `DictProxyManager.create` (lines 154-173). The uuid hex fragment
used for anonymous ids is environment-supplied (`freshHex`). -/
def managerCreate (mgr : Manager) (dataA : Nat) (name : Option String)
    (freshHex : String) : String × Manager :=
  let objId := match name with
    | some n => if n = "" then "dict_" ++ freshHex else n
    | none => "dict_" ++ freshHex
  let proxy : DictProxyV := .mk dataA objId []
  (objId, ⟨setK mgr.proxies objId proxy, setK mgr.reverseRef dataA objId⟩)

/-- Embeds `DictProxyManager.get` (lines 175-184). -/
def managerGet (mgr : Manager) (objId : String) : Option DictProxyV :=
  lookupK mgr.proxies objId

/-- Embeds `DictProxyManager.release` (lines 198-215): removes the forward
entry and, when present, the reverse entry of its backing dict. -/
def managerRelease (mgr : Manager) (objId : String) : Bool × Manager :=
  match lookupK mgr.proxies objId with
  | some p =>
      let rev := if hasK mgr.reverseRef p.data
        then eraseK mgr.reverseRef p.data else mgr.reverseRef
      (true, ⟨eraseK mgr.proxies objId, rev⟩)
  | none => (false, mgr)

/-! ## QuickJSTool dict-proxy callbacks (`quickjs_tool_thread.py`, lines 92-158)

These are the host functions registered into the guest interpreter. They are
the only code the guest can reach for proxy traffic. `_js_dict_get` may hit
`json.dumps` on a value that still contains a `DictProxy` (a mapping nested
inside an inner list); that `TypeError` is modelled by the `Except` error
case. All other callbacks are total. -/

/-- JSON view of a plain Python scalar; `none` for values `json.dumps`
rejects. -/
def pvScalarToJ : PyVal → Option JVal
  | .none => some .null
  | .bool b => some (.bool b)
  | .int n => some (.num n)
  | .str s => some (.str s)
  | _ => Option.none

mutual

/-- Serialization attempted by `json.dumps` on a non-proxy list item; a
`DictProxy` anywhere inside yields `none` (Python raises `TypeError`). -/
def wrappedItemToJ : Wrapped → Option JVal
  | .plain v => pvScalarToJ v
  | .pxy _ => none
  | .wlist xs => (wrappedListToJ xs).map .arr

/-- Serialization of a list of non-proxy items. -/
def wrappedListToJ : List Wrapped → Option (List JVal)
  | [] => some []
  | x :: rest =>
      match wrappedItemToJ x, wrappedListToJ rest with
      | some v, some vs => some (v :: vs)
      | _, _ => none

end

/-- The loop of `_js_dict_get` over a list value (lines 110-118): proxies are
registered in the manager and replaced by `{"__proxy": obj_id}` markers,
other items are serialized as they are. -/
def processListItems : List Wrapped → Manager → List (Option JVal) × Manager
  | [], mgr => ([], mgr)
  | .pxy c :: rest, mgr =>
      let mgr1 : Manager := if (lookupK mgr.proxies c.objId).isSome then mgr
        else ⟨setK mgr.proxies c.objId c, mgr.reverseRef⟩
      let (vs, mgr2) := processListItems rest mgr1
      (some (.obj [("__proxy", .str c.objId)]) :: vs, mgr2)
  | item :: rest, mgr =>
      let (vs, mgr1) := processListItems rest mgr
      (wrappedItemToJ item :: vs, mgr1)

/-- Collect serialized items; `none` anywhere is Python's `TypeError`. -/
def sequenceOpt : List (Option JVal) → Option (List JVal)
  | [] => some []
  | some v :: rest => (sequenceOpt rest).map (v :: ·)
  | none :: _ => none

/-- Embeds `QuickJSTool._js_dict_get` (`quickjs_tool_thread.py`, lines
92-120). A missing handle returns `None`; a dict value is registered and
returned as a `__PROXY:<id>__` sentinel; a list value is serialized to a JSON
string with `{"__proxy": id}` markers (raising `TypeError` when a proxy is
nested inside an inner list); scalars pass through. -/
def jsDictGet (mgr : Manager) (h : Heap) (objId key : String) :
    Except String PyVal × Manager :=
  match lookupK mgr.proxies objId with
  | Option.none => (.ok .none, mgr)
  | some p =>
      let (w, p1) := proxyGet p h key
      let mgr1 : Manager := ⟨setK mgr.proxies objId p1, mgr.reverseRef⟩
      match w with
      | .pxy c =>
          let mgr2 : Manager := if (lookupK mgr1.proxies c.objId).isSome then mgr1
            else ⟨setK mgr1.proxies c.objId c, mgr1.reverseRef⟩
          (.ok (.str ("__PROXY:" ++ c.objId ++ "__")), mgr2)
      | .wlist xs =>
          let (items, mgr2) := processListItems xs mgr1
          match sequenceOpt items with
          | some l => (.ok (.str (dumpsJ (.arr l))), mgr2)
          | Option.none =>
              (.error "TypeError: Object of type DictProxy is not JSON serializable", mgr2)
      | .plain v => (.ok v, mgr1)

/-- Embeds `QuickJSTool._js_dict_set` (lines 122-127): missing handles are a
silent no-op, otherwise `DictProxy.set` commits into the backing dict. -/
def jsDictSet (mgr : Manager) (h : Heap) (objId key : String) (value : JVal) :
    Manager × Heap :=
  match lookupK mgr.proxies objId with
  | Option.none => (mgr, h)
  | some p => (mgr, proxySet p h key value)

/-- Embeds `QuickJSTool._js_dict_has` (lines 129-135): returns the strings
`"true"`/`"false"`, `"false"` for a missing handle. -/
def jsDictHas (mgr : Manager) (h : Heap) (objId key : String) : String :=
  match lookupK mgr.proxies objId with
  | Option.none => "false"
  | some p => if proxyHas p h key then "true" else "false"

/-- Embeds `QuickJSTool._js_dict_keys` (lines 137-145): JSON string of the
key list, `"[]"` for a missing handle. -/
def jsDictKeys (mgr : Manager) (h : Heap) (objId : String) : String :=
  match lookupK mgr.proxies objId with
  | Option.none => dumpsJ (.arr [])
  | some p => dumpsJ (.arr ((proxyKeys p h).map .str))

/-- Embeds `QuickJSTool._js_dict_delete` (lines 147-150): `False` for a
missing handle, otherwise `DictProxy.delete`. -/
def jsDictDelete (mgr : Manager) (h : Heap) (objId key : String) : Bool × Heap :=
  match lookupK mgr.proxies objId with
  | Option.none => (false, h)
  | some p => proxyDelete p h key

/-! ## Context lifecycle of the thread coordinator
(`quickjs_tool_thread.py`, lines 234-283 and 495-575) -/

/-- Embeds the registry effect of `QuickJSTool.expose_dict` (lines 234-264):
creates the proxy under `obj_id` and returns the guest variable name
(`name or f"exposed_dict_{obj_id}"`). Guest-side `Proxy` creation and
`ctx.set` are interpreter effects outside the registry model. -/
def exposeDict (mgr : Manager) (dataA : Nat) (name : Option String)
    (freshHex : String) : String × Manager :=
  let (objId, mgr1) := managerCreate mgr dataA name freshHex
  let varName := match name with
    | some n => if n = "" then "exposed_dict_" ++ objId else n
    | none => "exposed_dict_" ++ objId
  (varName, mgr1)

/-- Embeds the registry effect of `QuickJSTool.release_dict` (lines 266-283):
releases under the given name; the guest global is deleted only when the
release succeeded. -/
def releaseDict (mgr : Manager) (name : String) : Bool × Manager :=
  managerRelease mgr name

/-- Embeds the context lifecycle of `QuickJSTool._execute_in_thread` (lines
495-575): when a context dict is supplied it is exposed anonymously, the
script is evaluated (outcome abstracted as `evalOutcome`), and the `finally`
block calls `release_dict` with the *variable name* returned by
`expose_dict`. Host exceptions are converted to `ValueError` messages. -/
def executeInThreadCtx (mgr : Manager) (ctxDict : Option Nat) (freshHex : String)
    (evalOutcome : Except String PyVal) : Except String PyVal × Manager :=
  let result : Except String PyVal := match evalOutcome with
    | .ok v => .ok v
    | .error e => .error ("JavaScript execution failed: " ++ e)
  match ctxDict with
  | Option.none => (result, mgr)
  | some a =>
      let (varName, mgr1) := exposeDict mgr a Option.none freshHex
      let (_, mgr2) := releaseDict mgr1 varName
      (result, mgr2)

/-! ## Parameter default filling (`utils/tool_args_utils.py`)

Pure value-level embedding: Python dicts are association lists and the
`dict(...)` copies are identities. The per-parameter loop body is identical
in `fill_default_args` (lines 96-104) and `fill_object_defaults` (lines
33-41) and is factored as `fillStep`/`fillPropsList`. Python evaluates
`"default" in prop_schema` only on dict-shaped schemas without raising; a
non-dict property schema (on which Python's `in` either raises or is a
substring test) is modelled as having no keys, and theorems restrict to
object-shaped schemas. -/

theorem lookupK_sizeOf {α : Type} [SizeOf α] :
    ∀ (m : List (String × α)) (k : String) (v : α), lookupK m k = some v → sizeOf v < sizeOf m
  | [], _, _, hv => by simp [lookupK] at hv
  | (k0, v0) :: rest, k, v, hv => by
      rw [lookupK] at hv
      by_cases hk : k0 = k
      · rw [if_pos hk] at hv
        cases hv
        simp
        omega
      · rw [if_neg hk] at hv
        have := lookupK_sizeOf rest k v hv
        simp
        omega

theorem getJ_sizeOf {s v : JVal} {k : String} (hv : getJ s k = some v) :
    sizeOf v < sizeOf s := by
  match s with
  | .obj fs =>
      rw [getJ] at hv
      have := lookupK_sizeOf fs k v hv
      simp
      omega
  | .null | .bool _ | .num _ | .str _ | .arr _ => simp [getJ] at hv

mutual

/-- Embeds `fill_object_defaults` (`tool_args_utils.py`, lines 9-43):
non-dict values pass through; a dict-shaped `default` of the schema is used
as the base and overridden by the given value; then the per-property loop
runs when `properties` is present and non-empty. -/
def fillObjectDefaults (objSchema : JVal) (objValue : JVal) : JVal :=
  match objValue with
  | .obj m =>
      let base : List (String × JVal) :=
        match getJ objSchema "default" with
        | some (.obj d) => updateK d m
        | _ => m
      match _hp : getJ objSchema "properties" with
      | some (.obj props) =>
          if props.isEmpty then .obj base else .obj (fillPropsList props base)
      | _ => .obj base
  | v => v
termination_by 2 * sizeOf objSchema
decreasing_by
  have := getJ_sizeOf _hp
  simp at this ⊢
  omega

/-- The `for prop_name, prop_schema in properties.items()` loop shared by
`fill_default_args` and `fill_object_defaults`. -/
def fillPropsList (props : List (String × JVal)) (result : List (String × JVal)) :
    List (String × JVal) :=
  match props with
  | [] => result
  | (p, ps) :: rest => fillPropsList rest (fillStep p ps result)
termination_by 2 * sizeOf props + 1
decreasing_by
  all_goals simp
  all_goals omega

/-- One iteration of the loop: insert the declared default when the
parameter is absent, recurse into a present dict-shaped value when the
property schema carries `properties` or `default`. -/
def fillStep (p : String) (ps : JVal) (result : List (String × JVal)) :
    List (String × JVal) :=
  match lookupK result p with
  | Option.none =>
      match getJ ps "default" with
      | some d => setK result p d
      | Option.none => result
  | some (.obj mv) =>
      if hasJ ps "properties" || hasJ ps "default" then
        setK result p (fillObjectDefaults ps (.obj mv))
      else result
  | some _ => result
termination_by 2 * sizeOf ps + 1
decreasing_by omega

end

/-- Embeds `fill_default_args` (`tool_args_utils.py`, lines 46-106): an empty
or `properties`-less schema returns the arguments unchanged, otherwise the
per-parameter loop runs on a copy. -/
def fillDefaultArgs (toolSchema : JVal) (toolArgs : List (String × JVal)) :
    List (String × JVal) :=
  match getJ toolSchema "properties" with
  | some (.obj props) => if props.isEmpty then toolArgs else fillPropsList props toolArgs
  | _ => toolArgs

/-! ## Script Composition Wrapper (`utils/script_wrapper.py`) -/

/-- Python `",\n  ".join(parts)`. -/
def joinParts : List String → String
  | [] => ""
  | [s] => s
  | s :: t :: rest => s ++ ",\n  " ++ joinParts (t :: rest)

/-- Embeds `wrap_javascript_code` (`script_wrapper.py`, lines 9-65). The
`system_metadata` read from the configuration (empty when loading fails) is
an environment input; `user_info` entries override it. `params` is the
argument dict placed in `context.args`. When `inherit_from` is set, the
wrapper emits `const data = callTool("<parent>", <params-json>);` evaluated
eagerly inside the context literal and exposed as `context.data`. -/
def wrapJavascriptCode (code : String) (params : List (String × JVal))
    (userInfo : List (String × JVal)) (systemMetadata : List (String × JVal))
    (inheritFrom : Option String) : String :=
  let metadata := if userInfo.isEmpty then systemMetadata
    else updateK systemMetadata userInfo
  let parts1 : List String := ["args: " ++ dumpsJ (.obj params)]
  let parts2 : List String := if metadata.isEmpty then parts1
    else parts1 ++ ["user_info: " ++ dumpsJ (.obj metadata)]
  let dataScript : String := match inheritFrom with
    | some parent =>
        if parent = "" then ""
        else "const data = callTool(\"" ++ parent ++ "\", " ++ dumpsJ (.obj params) ++ ");"
    | none => ""
  let parts3 : List String := if dataScript = "" then parts2
    else parts2 ++ ["data: (() => \x7b " ++ dataScript ++ " return data; \x7d)()"]
  let contextStr := "const context = \x7b\n  " ++ joinParts parts3 ++ "\n\x7d;"
  if containsSub code "function execute" then
    "\n" ++ contextStr ++ "\n" ++ code ++ "\nreturn execute(context);\n"
  else
    "\n" ++ contextStr ++ "\n" ++ code ++ "\n"

/-! ## Heap-level default filling (frame conditions)

The same two functions of `tool_args_utils.py`, embedded against the heap so
that mutation and object identity are observable. Schemas are JSON trees
(they come from `get_parameters()`); the argument dict is heap-resident.
In-place updates of the freshly created `result = dict(...)` are rendered as
pure field-list construction with a single allocation on return, and a
schema default written into the result is materialized as fresh dicts (in
CPython the schema's own objects would be shared; nothing ever writes to
them, which is part of what is proved here). -/

mutual

/-- Heap-level `fill_object_defaults`. -/
def fillObjectDefaultsH (objSchema : JVal) (objValue : PyVal) (h : Heap) :
    PyVal × Heap :=
  match objValue with
  | .ref a =>
      let m : HDict := (readH h a).getD []
      let baseStep : HDict × Heap :=
        match getJ objSchema "default" with
        | some (.obj dflt) =>
            let (dm, h1) := materializeF dflt h
            (updateK dm m, h1)
        | _ => (m, h)
      let base := baseStep.1
      let h1 := baseStep.2
      match _hp : getJ objSchema "properties" with
      | some (.obj props) =>
          if props.isEmpty then
            let (a2, h2) := allocH h1 base
            (.ref a2, h2)
          else
            let (fields, h2) := fillPropsListH props base h1
            let (a2, h3) := allocH h2 fields
            (.ref a2, h3)
      | _ =>
          let (a2, h2) := allocH h1 base
          (.ref a2, h2)
  | v => (v, h)
termination_by 2 * sizeOf objSchema
decreasing_by
  have := getJ_sizeOf _hp
  simp at this ⊢
  omega

/-- Heap-level property loop. -/
def fillPropsListH (props : List (String × JVal)) (result : HDict) (h : Heap) :
    HDict × Heap :=
  match props with
  | [] => (result, h)
  | (p, ps) :: rest =>
      let (r1, h1) := fillStepH p ps result h
      fillPropsListH rest r1 h1
termination_by 2 * sizeOf props + 1
decreasing_by
  all_goals simp
  all_goals omega

/-- Heap-level loop body. -/
def fillStepH (p : String) (ps : JVal) (result : HDict) (h : Heap) : HDict × Heap :=
  match lookupK result p with
  | Option.none =>
      match getJ ps "default" with
      | some d =>
          let (dv, h1) := materializeV d h
          (setK result p dv, h1)
      | Option.none => (result, h)
  | some (.ref b) =>
      if hasJ ps "properties" || hasJ ps "default" then
        let (nv, h1) := fillObjectDefaultsH ps (.ref b) h
        (setK result p nv, h1)
      else (result, h)
  | some _ => (result, h)
termination_by 2 * sizeOf ps + 1
decreasing_by omega

end

/-- Heap-level `fill_default_args`: an empty or `properties`-less schema
returns the argument dict itself (the same reference, no copy); otherwise the
loop runs on a shallow copy which is returned as a fresh dict. -/
def fillDefaultArgsH (toolSchema : JVal) (argsRef : Nat) (h : Heap) : PyVal × Heap :=
  match getJ toolSchema "properties" with
  | some (.obj props) =>
      if props.isEmpty then (.ref argsRef, h)
      else
        let m : HDict := (readH h argsRef).getD []
        let (fields, h1) := fillPropsListH props m h
        let (a, h2) := allocH h1 fields
        (.ref a, h2)
  | _ => (.ref argsRef, h)

/-! ## Tool invocation (`tools/quickjs/call_tool.py`) -/

/-- A registered tool: its parameter schema (`get_parameters()`) and its
execution path (`invoke(**args)`), which may raise. -/
structure ToolR : Type where
  getParameters : JVal
  invokeR : List (String × JVal) → Except String JVal

/-- Modelled from the spec: `src/tools/registry.py` is imported by
`call_tool.py` and `registry_init.py` but is not part of the source snapshot.
Spec sections 4.2/4.3: the registry maps tool names to tools; `get` looks a
name up; `list_all` returns the currently known tool names. -/
def registryGet (reg : List (String × ToolR)) (name : String) : Option ToolR :=
  lookupK reg name

/-- Modelled from the spec: the registry's current tool-name list. -/
def registryListAll (reg : List (String × ToolR)) : List String := keysK reg

/-- Embeds `_call_tool` (`call_tool.py`, lines 19-71). `loads` abstracts
`json.loads` (environment-supplied JSON parser). An unknown name returns the
`ToolNotFound` structure; a JSON parse failure returns `InvalidArgs`; a
raising tool returns `ToolError`; only a non-dict argument value can escape
as a host exception (the `dict(tool_args)` copy inside `fill_default_args`
or the `**args` splat raises before the `try` takes effect). -/
def callToolHost (reg : List (String × ToolR)) (loads : String → Option JVal)
    (name : String) (argsJson : String) : Except String JVal :=
  match registryGet reg name with
  | Option.none =>
      .ok (.obj [("error", .str "ToolNotFound"),
                 ("tool", .str name),
                 ("message", .str ("Tool \x27" ++ name ++ "\x27 not found")),
                 ("available", .arr ((registryListAll reg).map .str))])
  | some tool =>
      match (if argsJson = "" then some (.obj []) else loads argsJson) with
      | Option.none =>
          .ok (.obj [("error", .str "InvalidArgs"),
                     ("tool", .str name),
                     ("message", .str "Invalid JSON arguments")])
      | some (.obj fs) =>
          let args := fillDefaultArgs tool.getParameters fs
          match tool.invokeR args with
          | .ok r => .ok r
          | .error e =>
              .ok (.obj [("error", .str "ToolError"),
                         ("tool", .str name),
                         ("message", .str e)])
      | some _ => .error "TypeError: arguments must be a mapping"

/-! ## Guest-side `callTool` wrapper (`call_tool.py`, lines 77-97)

The JS helper evaluated into every interpreter:
its `try` block parses the transport string, throws a guest `Error` when the
parsed response carries an `error` field, and otherwise returns the parsed
object; the `catch` clause returns the raw string. A throw inside a `try`
transfers control to the `catch` of the same statement, so the embedding
routes both the parse failure and the deliberate error-throw into the
handler. -/

/-- Guest-level error value: the JSON parse failure or the thrown `Error`. -/
inductive JsErr : Type where
  | parseFailed
  | thrown (msg : JVal)

/-- JavaScript property access `v.k` (absent and non-object yield undefined,
modelled as `none`). -/
def jsGetField (v : JVal) (k : String) : Option JVal :=
  match v with
  | .obj fs => lookupK fs k
  | _ => none

/-- JavaScript truthiness of a possibly-undefined value. -/
def jsTruthy : Option JVal → Bool
  | Option.none => false
  | some .null => false
  | some (.bool b) => b
  | some (.num n) => n ≠ 0
  | some (.str s) => s ≠ ""
  | some (.arr _) => true
  | some (.obj _) => true

/-- The `try` block of the guest `callTool` wrapper: `JSON.parse`, then
`throw new Error(parsed.message || parsed.error)` when the response carries
an `error` field, else return the parsed value. -/
def callToolTryBody (parse : String → Option JVal) (result : String) :
    Except JsErr JVal :=
  match parse result with
  | Option.none => .error .parseFailed
  | some parsed =>
      if jsTruthy (some parsed) && jsTruthy (jsGetField parsed "error") then
        .error (.thrown
          (if jsTruthy (jsGetField parsed "message") then
            (jsGetField parsed "message").getD .null
          else (jsGetField parsed "error").getD .null))
      else .ok parsed

/-- The whole guest wrapper from the point where `_callTool` has returned the
transport string `result`: the `catch (e)` clause returns the raw string, so
every throw raised inside the `try` (including the deliberate one) is
swallowed and the function returns normally. -/
def callToolGuestOutcome (parse : String → Option JVal) (result : String) :
    Except JsErr JVal :=
  match callToolTryBody parse result with
  | .ok v => .ok v
  | .error _ => .ok (.str result)

/-! ## Basic lemmas about the dict and heap primitives -/

theorem lookupK_setK_self {κ α : Type} [DecidableEq κ] :
    ∀ (m : List (κ × α)) (k : κ) (v : α), lookupK (setK m k v) k = some v
  | [], k, v => by simp [setK, lookupK]
  | (k0, w) :: rest, k, v => by
      by_cases hk : k0 = k
      · simp [setK, hk, lookupK]
      · simp [setK, hk, lookupK, lookupK_setK_self rest k v]

theorem lookupK_setK_ne {κ α : Type} [DecidableEq κ] :
    ∀ (m : List (κ × α)) (k k2 : κ) (v : α), k2 ≠ k →
      lookupK (setK m k v) k2 = lookupK m k2
  | [], k, k2, v, hne => by simp [setK, lookupK, hne.symm]
  | (k0, w) :: rest, k, k2, v, hne => by
      by_cases hk : k0 = k
      · subst hk
        simp [setK, lookupK, hne.symm]
      · simp only [setK, if_neg hk, lookupK]
        by_cases hk2 : k0 = k2
        · simp [hk2]
        · simp [hk2, lookupK_setK_ne rest k k2 v hne]

theorem setK_lookup_eq_self {κ α : Type} [DecidableEq κ] :
    ∀ (m : List (κ × α)) (k : κ) (v : α), lookupK m k = some v → setK m k v = m
  | [], k, v, hlk => by simp [lookupK] at hlk
  | (k0, w) :: rest, k, v, hlk => by
      rw [lookupK] at hlk
      by_cases hk : k0 = k
      · rw [if_pos hk] at hlk
        cases hlk
        simp [setK, hk]
      · rw [if_neg hk] at hlk
        simp [setK, hk, setK_lookup_eq_self rest k v hlk]

theorem lookupK_eraseK_ne {κ α : Type} [DecidableEq κ] :
    ∀ (m : List (κ × α)) (k k2 : κ), k2 ≠ k →
      lookupK (eraseK m k) k2 = lookupK m k2
  | [], k, k2, hne => by simp [eraseK]
  | (k0, w) :: rest, k, k2, hne => by
      by_cases hk : k0 = k
      · subst hk
        simp [eraseK, lookupK, hne.symm]
      · simp only [eraseK, if_neg hk, lookupK]
        by_cases hk2 : k0 = k2
        · simp [hk2]
        · simp [hk2, lookupK_eraseK_ne rest k k2 hne]

theorem hasK_iff_mem_keys {κ α : Type} [DecidableEq κ] :
    ∀ (m : List (κ × α)) (k : κ), hasK m k = true ↔ k ∈ keysK m
  | [], k => by simp [hasK, lookupK, keysK]
  | (k0, w) :: rest, k => by
      simp only [keysK, List.map_cons, List.mem_cons]
      by_cases hk : k0 = k
      · simp [hasK, lookupK, hk]
      · rw [show hasK ((k0, w) :: rest) k = hasK rest k from by simp [hasK, lookupK, hk]]
        rw [hasK_iff_mem_keys rest k]
        simp only [keysK]
        constructor
        · exact Or.inr
        · rintro (h | h)
          · exact absurd h.symm hk
          · exact h

theorem readH_lt_length {h : Heap} {a : Nat} {d : HDict} (hd : readH h a = some d) :
    a < h.length := by
  by_contra hge
  rw [readH, List.get?_eq_none.mpr (Nat.le_of_not_lt hge)] at hd
  exact Option.noConfusion hd

theorem readH_writeH_self {h : Heap} {a : Nat} {d0 : HDict} (d : HDict)
    (hd : readH h a = some d0) : readH (writeH h a d) a = some d := by
  have hlt := readH_lt_length hd
  rw [readH, writeH, List.get?_eq_getElem?, List.getElem?_set_self]
  omega

theorem readH_writeH_ne {h : Heap} {a b : Nat} (d : HDict) (hne : b ≠ a) :
    readH (writeH h a d) b = readH h b := by
  rw [readH, writeH, readH, List.get?_eq_getElem?, List.get?_eq_getElem?,
    List.getElem?_set_ne (fun h => hne h.symm)]

theorem readH_allocH_new (h : Heap) (d : HDict) :
    readH (allocH h d).2 h.length = some d := by
  rw [readH, allocH, List.get?_eq_getElem?]
  exact List.getElem?_concat_length h d

theorem strLength_pos {p : String} (hp : p ≠ "") : 0 < p.length := by
  cases p with
  | mk data =>
    cases data with
    | nil => exact absurd rfl hp
    | cons c cs => simp [String.length]

theorem strAppend_left_ne (p s : String) (hp : p ≠ "") : p ++ s ≠ s := by
  intro h
  have hlen := congrArg String.length h
  rw [String.length_append] at hlen
  have hp0 : 0 < p.length := strLength_pos hp
  omega

theorem managerRelease_lookup_other (mgr : Manager) (name k : String) (hne : k ≠ name) :
    lookupK (managerRelease mgr name).2.proxies k = lookupK mgr.proxies k := by
  unfold managerRelease
  cases hlk : lookupK mgr.proxies name
  · rfl
  · exact lookupK_eraseK_ne _ _ _ hne

/-- C7: for every invocation of the thread coordinator that supplies an
ExecutionContext dict, the context proxy registered under `dict_<hex>` is
STILL registered after `_execute_in_thread` returns, on the success and on
the failure path alike: the `finally` block passes the guest variable name
`exposed_dict_dict_<hex>` to `release_dict`, which is not the registry key,
so the release returns `False` and removes nothing. This refutes the claimed
guaranteed release (the code's own `finally` comment and the sibling
`quickjs_tool.py` path show the release was intended). -/
theorem executeInThread_context_still_registered
    (mgr : Manager) (a : Nat) (freshHex : String) (outcome : Except String PyVal) :
    managerGet (executeInThreadCtx mgr (some a) freshHex outcome).2 ("dict_" ++ freshHex)
      = some (.mk a ("dict_" ++ freshHex) []) := by
  have hne : ("exposed_dict_" ++ ("dict_" ++ freshHex)) ≠ ("dict_" ++ freshHex) :=
    strAppend_left_ne _ _ (by decide)
  have hred : (executeInThreadCtx mgr (some a) freshHex outcome).2
      = (managerRelease
          ⟨setK mgr.proxies ("dict_" ++ freshHex) (.mk a ("dict_" ++ freshHex) []),
           setK mgr.reverseRef a ("dict_" ++ freshHex)⟩
          ("exposed_dict_" ++ ("dict_" ++ freshHex))).2 := rfl
  rw [managerGet, hred, managerRelease_lookup_other _ _ _ (Ne.symm hne)]
  exact lookupK_setK_self _ _ _

/-- C2: a guest write through the proxy bridge commits into the original
backing dict: with a handle registered for address `p.data`, `_js_dict_set`
leaves the manager unchanged, updates the dict at the backing address in
place (`M[key] = unwrapped value`, read-after-write visible to the host),
and leaves every other pre-existing dict of the heap untouched (no copy is
written anywhere else). -/
theorem jsDictSet_mutates_backing_in_place
    (mgr : Manager) (h : Heap) (objId key : String) (v : JVal)
    (p : DictProxyV) (d : HDict)
    (hp : lookupK mgr.proxies objId = some p) (hd : readH h p.data = some d) :
    (jsDictSet mgr h objId key v).1 = mgr ∧
    readH (jsDictSet mgr h objId key v).2 p.data = some (setK d key (unwrapV v h).1) ∧
    (∀ b d0, b ≠ p.data → readH h b = some d0 →
      readH (jsDictSet mgr h objId key v).2 b = some d0) := by
  have hext := unwrapV_extends v h
  have hd1 : readH (unwrapV v h).2 p.data = some d := hext _ _ hd
  have hred : jsDictSet mgr h objId key v = (mgr, proxySet p h key v) := by
    unfold jsDictSet
    rw [hp]
  have hps : proxySet p h key v
      = writeH (unwrapV v h).2 p.data
          (setK ((readH (unwrapV v h).2 p.data).getD []) key (unwrapV v h).1) := rfl
  rw [hred, hps, hd1]
  refine ⟨rfl, ?_, ?_⟩
  · exact readH_writeH_self _ hd1
  · intro b d0 hbne hb
    rw [readH_writeH_ne _ hbne]
    exact hext _ _ hb

/-- Witness for C2: exposing `{"name": "Alice", "age": 30}` as `userData`
and evaluating `userData.name = 'Bob'; userData.city = 'Beijing'` leaves the
original dict (heap address 0) equal to
`{"name": "Bob", "age": 30, "city": "Beijing"}`. -/
theorem jsDictSet_mutates_backing_witness :
    readH (jsDictSet ⟨[("userData", .mk 0 "userData" [])], [(0, "userData")]⟩
        [[("name", .str "Alice"), ("age", .int 30)]] "userData" "name" (.str "Bob")).2 0
      = some (setK [("name", .str "Alice"), ("age", .int 30)] "name"
          (unwrapV (.str "Bob") [[("name", .str "Alice"), ("age", .int 30)]]).1) ∧
    readH (jsDictSet ⟨[("userData", .mk 0 "userData" [])], [(0, "userData")]⟩
        (jsDictSet ⟨[("userData", .mk 0 "userData" [])], [(0, "userData")]⟩
          [[("name", .str "Alice"), ("age", .int 30)]] "userData" "name" (.str "Bob")).2
        "userData" "city" (.str "Beijing")).2 0
      = some [("name", .str "Bob"), ("age", .int 30), ("city", .str "Beijing")] := by
  constructor
  · exact (jsDictSet_mutates_backing_in_place
      ⟨[("userData", .mk 0 "userData" [])], [(0, "userData")]⟩
      [[("name", .str "Alice"), ("age", .int 30)]] "userData" "name" (.str "Bob")
      (.mk 0 "userData" []) [("name", .str "Alice"), ("age", .int 30)] rfl rfl).2.1
  · rfl

/-- C9: the proxy-bridge callbacks degrade instead of raising. For a handle
id absent from the registry: `get` returns `None`, `has` returns `"false"`,
`keys` returns `"[]"`, `delete` returns `False`, and `set` is a no-op. For a
registered handle whose backing dict lacks the key (and whose cache has no
entry under that string key, which the code never creates): `get` returns
`None` and leaves the state unchanged, `has` returns `"false"`. `delete`
returns exactly whether the key was present, removes it when it was, and
never raises for a missing key. -/
theorem jsDict_callbacks_degrade
    (mgr : Manager) (h : Heap) (objId key : String) (v : JVal)
    (p : DictProxyV) (d : HDict) :
    (lookupK mgr.proxies objId = Option.none →
      jsDictGet mgr h objId key = (.ok .none, mgr) ∧
      jsDictHas mgr h objId key = "false" ∧
      jsDictKeys mgr h objId = "[]" ∧
      jsDictDelete mgr h objId key = (false, h) ∧
      jsDictSet mgr h objId key v = (mgr, h)) ∧
    (lookupK mgr.proxies objId = some p → readH h p.data = some d →
      lookupK d key = Option.none →
      lookupK p.cache (.strKey key) = Option.none →
      jsDictGet mgr h objId key = (.ok .none, mgr) ∧
      jsDictHas mgr h objId key = "false") ∧
    (lookupK mgr.proxies objId = some p → readH h p.data = some d →
      (jsDictDelete mgr h objId key).1 = hasK d key ∧
      (hasK d key = true →
        (jsDictDelete mgr h objId key).2 = writeH h p.data (eraseK d key)) ∧
      (hasK d key = false → (jsDictDelete mgr h objId key).2 = h)) := by
  refine ⟨?_, ?_, ?_⟩
  · intro habs
    refine ⟨?_, ?_, ?_, ?_, ?_⟩ <;>
      simp [jsDictGet, jsDictHas, jsDictKeys, jsDictDelete, jsDictSet, habs, dumpsJ, dumpsArr]
  · intro hp hd hk hck
    have hval : (lookupK ((readH h p.data).getD []) key).getD PyVal.none = PyVal.none := by
      rw [hd]
      simp [hk]
    have hpg : proxyGet p h key = (.plain .none, p) := by
      simp [proxyGet, hval, hck, cacheKeyFor, wrapValue]
    have hmgr : Manager.mk (setK mgr.proxies objId p) mgr.reverseRef = mgr := by
      cases mgr with
      | mk ps rev => simp [setK_lookup_eq_self ps objId p hp]
    constructor
    · simp [jsDictGet, hp, hpg, hmgr]
    · simp [jsDictHas, hp, proxyHas, hd, hasK, hk]
  · intro hp hd
    simp only [jsDictDelete, hp, proxyDelete, hd, Option.getD_some]
    by_cases hkk : hasK d key
    · simp [hkk]
    · simp [hkk]

/-- Witness for C9: a registry with one handle `ctx` over `{"a": 1}`; the
unknown handle `ghost` degrades on every operation, the missing key `b`
degrades on `get`/`has`/`delete`, and `delete` on the present key `a`
reports `True` and removes it. -/
theorem jsDict_callbacks_degrade_witness :
    jsDictGet ⟨[("ctx", .mk 0 "ctx" [])], []⟩ [[("a", .int 1)]] "ghost" "a"
      = (.ok .none, ⟨[("ctx", .mk 0 "ctx" [])], []⟩) ∧
    jsDictKeys ⟨[("ctx", .mk 0 "ctx" [])], []⟩ [[("a", .int 1)]] "ghost" = "[]" ∧
    jsDictGet ⟨[("ctx", .mk 0 "ctx" [])], []⟩ [[("a", .int 1)]] "ctx" "b"
      = (.ok .none, ⟨[("ctx", .mk 0 "ctx" [])], []⟩) ∧
    jsDictHas ⟨[("ctx", .mk 0 "ctx" [])], []⟩ [[("a", .int 1)]] "ctx" "b" = "false" ∧
    (jsDictDelete ⟨[("ctx", .mk 0 "ctx" [])], []⟩ [[("a", .int 1)]] "ctx" "b").1 = false ∧
    (jsDictDelete ⟨[("ctx", .mk 0 "ctx" [])], []⟩ [[("a", .int 1)]] "ctx" "a").1 = true ∧
    (jsDictDelete ⟨[("ctx", .mk 0 "ctx" [])], []⟩ [[("a", .int 1)]] "ctx" "a").2 = [[]] := by
  have hmain := jsDict_callbacks_degrade ⟨[("ctx", .mk 0 "ctx" [])], []⟩
    [[("a", .int 1)]] "ghost" "a" .null (.mk 0 "ctx" []) [("a", .int 1)]
  have hmiss := jsDict_callbacks_degrade ⟨[("ctx", .mk 0 "ctx" [])], []⟩
    [[("a", .int 1)]] "ctx" "b" .null (.mk 0 "ctx" []) [("a", .int 1)]
  have hdel := jsDict_callbacks_degrade ⟨[("ctx", .mk 0 "ctx" [])], []⟩
    [[("a", .int 1)]] "ctx" "a" .null (.mk 0 "ctx" []) [("a", .int 1)]
  refine ⟨(hmain.1 rfl).1, (hmain.1 rfl).2.2.1, (hmiss.2.1 rfl rfl rfl rfl).1,
    (hmiss.2.1 rfl rfl rfl rfl).2, ?_, ?_, ?_⟩
  · rw [(hmiss.2.2 rfl rfl).1]
    rfl
  · rw [(hdel.2.2 rfl rfl).1]
    rfl
  · rw [(hdel.2.2 rfl rfl).2.1 rfl]
    rfl

/-- C6: reading the same nested-mapping field twice resolves to the same
handle id. With a handle for `M`, a key whose value is the nested dict at
address `a`, and no cache entry for `a` yet, the first `_js_dict_get`
returns the sentinel `__PROXY:<objId>.child_<a>__`, registers that child
handle over the same backing address `a`, and the second read (through the
populated `_children_cache`) returns the identical sentinel. -/
theorem jsDictGet_nested_same_handle
    (mgr : Manager) (h : Heap) (objId key : String) (p : DictProxyV) (a : Nat)
    (hp : lookupK mgr.proxies objId = some p)
    (hid : p.objId = objId)
    (hv : lookupK ((readH h p.data).getD []) key = some (.ref a))
    (hc : lookupK p.cache (.addr a) = Option.none)
    (hfresh : lookupK mgr.proxies (objId ++ ".child_" ++ toString a) = Option.none) :
    (jsDictGet mgr h objId key).1
      = .ok (.str ("__PROXY:" ++ (objId ++ ".child_" ++ toString a) ++ "__")) ∧
    managerGet (jsDictGet mgr h objId key).2 (objId ++ ".child_" ++ toString a)
      = some (.mk a (objId ++ ".child_" ++ toString a) []) ∧
    (jsDictGet (jsDictGet mgr h objId key).2 h objId key).1
      = (jsDictGet mgr h objId key).1 := by
  obtain ⟨pd, po, pc⟩ := p
  simp only [DictProxyV.objId, DictProxyV.data, DictProxyV.cache] at hid hv hc
  subst hid
  have hcidne : (po ++ ".child_" ++ toString a) ≠ po := by
    intro heq
    have hlen := congrArg String.length heq
    simp only [String.length_append] at hlen
    have h7 : String.length ".child_" = 7 := rfl
    omega
  have hpg : proxyGet (.mk pd po pc) h key
      = (.pxy (.mk a (po ++ ".child_" ++ toString a) []),
         .mk pd po
           (setK pc (.addr a) (.pxy (.mk a (po ++ ".child_" ++ toString a) [])))) := by
    simp [proxyGet, DictProxyV.data, DictProxyV.objId, DictProxyV.cache, hv, cacheKeyFor,
      hc, wrapValue]
  have hlk2 : lookupK (setK mgr.proxies po
      (DictProxyV.mk pd po
        (setK pc (.addr a) (.pxy (.mk a (po ++ ".child_" ++ toString a) [])))))
      (po ++ ".child_" ++ toString a) = Option.none := by
    rw [lookupK_setK_ne _ _ _ _ hcidne]
    exact hfresh
  have hred1 : jsDictGet mgr h po key
      = (.ok (.str ("__PROXY:" ++ (po ++ ".child_" ++ toString a) ++ "__")),
         ⟨setK (setK mgr.proxies po
             (.mk pd po
               (setK pc (.addr a) (.pxy (.mk a (po ++ ".child_" ++ toString a) [])))))
           (po ++ ".child_" ++ toString a)
           (.mk a (po ++ ".child_" ++ toString a) []),
          mgr.reverseRef⟩) := by
    simp [jsDictGet, hp, hpg, DictProxyV.objId, hlk2]
  have hpg2 : proxyGet
      (.mk pd po
        (setK pc (.addr a) (.pxy (.mk a (po ++ ".child_" ++ toString a) []))))
      h key
      = (.pxy (.mk a (po ++ ".child_" ++ toString a) []),
         .mk pd po
           (setK pc (.addr a) (.pxy (.mk a (po ++ ".child_" ++ toString a) [])))) := by
    simp [proxyGet, DictProxyV.data, DictProxyV.cache, hv, cacheKeyFor, lookupK_setK_self]
  refine ⟨by rw [hred1], by rw [hred1, managerGet]; exact lookupK_setK_self _ _ _, ?_⟩
  rw [hred1]
  have hlkb : lookupK (setK (setK mgr.proxies po
      (DictProxyV.mk pd po
        (setK pc (.addr a) (.pxy (.mk a (po ++ ".child_" ++ toString a) [])))))
      (po ++ ".child_" ++ toString a)
      (DictProxyV.mk a (po ++ ".child_" ++ toString a) [])) po
      = some (.mk pd po
          (setK pc (.addr a) (.pxy (.mk a (po ++ ".child_" ++ toString a) [])))) := by
    rw [lookupK_setK_ne _ _ _ _ (Ne.symm hcidne)]
    exact lookupK_setK_self _ _ _
  simp [jsDictGet, hlkb, hpg2, DictProxyV.objId]

/-- Witness for C6: context `{ "a": {nested} }` at address 0, nested dict at
address 1; both reads of `context.a` return `__PROXY:ctx.child_1__`. -/
theorem jsDictGet_nested_same_handle_witness :
    (jsDictGet ⟨[("ctx", .mk 0 "ctx" [])], []⟩ [[("a", .ref 1)], [("x", .int 5)]]
        "ctx" "a").1 = .ok (.str "__PROXY:ctx.child_1__") ∧
    (jsDictGet (jsDictGet ⟨[("ctx", .mk 0 "ctx" [])], []⟩
        [[("a", .ref 1)], [("x", .int 5)]] "ctx" "a").2
      [[("a", .ref 1)], [("x", .int 5)]] "ctx" "a").1
      = .ok (.str "__PROXY:ctx.child_1__") := by
  have hmain := jsDictGet_nested_same_handle ⟨[("ctx", .mk 0 "ctx" [])], []⟩
    [[("a", .ref 1)], [("x", .int 5)]] "ctx" "a" (.mk 0 "ctx" []) 1
    rfl rfl rfl rfl rfl
  exact ⟨hmain.1, hmain.2.2.trans hmain.1⟩

/-- C3 (amended): `set` with a guest mapping that carries a `"__proxy_id"`
marker commits the marker mapping itself: the stored value is a freshly
allocated dict (address at or past the old heap end) holding the marker
fields verbatim, including the `"__proxy_id"` key, not the live backing
mapping registered under that id. -/
theorem jsDictSet_marker_stored_verbatim
    (mgr : Manager) (h : Heap) (objId key : String) (fs : List (String × JVal))
    (p : DictProxyV) (d : HDict)
    (hp : lookupK mgr.proxies objId = some p) (hd : readH h p.data = some d)
    (hmk : hasK fs "__proxy_id" = true) :
    ∃ a, h.length ≤ a ∧
      readH (jsDictSet mgr h objId key (.obj fs)).2 p.data
        = some (setK d key (.ref a)) ∧
      readH (jsDictSet mgr h objId key (.obj fs)).2 a
        = some (materializeF fs h).1 ∧
      hasK (materializeF fs h).1 "__proxy_id" = true := by
  have hmext := materializeF_extends fs h
  have hun : unwrapV (.obj fs) h
      = (.ref (materializeF fs h).2.length,
         (allocH (materializeF fs h).2 (materializeF fs h).1).2) := by
    simp [unwrapV, hmk, allocH]
  have hext2 : extendsH h (allocH (materializeF fs h).2 (materializeF fs h).1).2 :=
    extendsH_trans hmext (extendsH_alloc _ _)
  have hd2 : readH (allocH (materializeF fs h).2 (materializeF fs h).1).2 p.data
      = some d := hext2 _ _ hd
  have hared : jsDictSet mgr h objId key (.obj fs)
      = (mgr, writeH (allocH (materializeF fs h).2 (materializeF fs h).1).2 p.data
          (setK d key (.ref (materializeF fs h).2.length))) := by
    unfold jsDictSet
    rw [hp]
    show (mgr, proxySet p h key (.obj fs)) = _
    unfold proxySet
    rw [hun]
    simp [hd2]
  have hlen : h.length ≤ (materializeF fs h).2.length := extendsH_length hmext
  have hpd : p.data < h.length := readH_lt_length hd
  refine ⟨(materializeF fs h).2.length, hlen, ?_, ?_, ?_⟩
  · rw [hared]
    exact readH_writeH_self _ hd2
  · rw [hared]
    rw [readH_writeH_ne _ (by omega)]
    exact readH_allocH_new _ _
  · rw [hasK_iff_mem_keys, materializeF_keys]
    rw [hasK_iff_mem_keys] at hmk
    exact hmk

/-- Witness for C3 (amended): the context dict at address 0, a registered
proxy `p` backing address 1; assigning `{"__proxy_id": "p"}` to `context.k`
stores a fresh marker dict. -/
theorem jsDictSet_marker_stored_verbatim_witness :
    ∃ a, (2 : Nat) ≤ a ∧
      readH (jsDictSet ⟨[("ctx", .mk 0 "ctx" []), ("p", .mk 1 "p" [])], []⟩
          [[], [("secret", .int 7)]] "ctx" "k" (.obj [("__proxy_id", .str "p")])).2 0
        = some (setK [] "k" (.ref a)) ∧
      readH (jsDictSet ⟨[("ctx", .mk 0 "ctx" []), ("p", .mk 1 "p" [])], []⟩
          [[], [("secret", .int 7)]] "ctx" "k" (.obj [("__proxy_id", .str "p")])).2 a
        = some (materializeF [("__proxy_id", .str "p")] [[], [("secret", .int 7)]]).1 ∧
      hasK (materializeF [("__proxy_id", .str "p")] [[], [("secret", .int 7)]]).1
        "__proxy_id" = true := by
  exact jsDictSet_marker_stored_verbatim
    ⟨[("ctx", .mk 0 "ctx" []), ("p", .mk 1 "p" [])], []⟩
    [[], [("secret", .int 7)]] "ctx" "k" [("__proxy_id", .str "p")]
    (.mk 0 "ctx" []) [] rfl rfl rfl

/-- Counterexample for C3 as stated: with the live mapping of proxy `"p"`
backing address 1, the guest assignment `context.k = {"__proxy_id": "p"}`
stores a reference to the freshly allocated address 2 whose content is the
marker dict itself; it does not store the backing mapping of `"p"`
(address 1, still `{"secret": 7}` and not aliased by `context.k`). -/
theorem jsDictSet_marker_not_dereferenced_cex :
    lookupK ((readH (jsDictSet ⟨[("ctx", .mk 0 "ctx" []), ("p", .mk 1 "p" [])], []⟩
        [[], [("secret", .int 7)]] "ctx" "k" (.obj [("__proxy_id", .str "p")])).2 0).getD [])
        "k" = some (.ref 2) ∧
    (DictProxyV.mk 1 "p" []).data = 1 ∧
    PyVal.ref 2 ≠ PyVal.ref 1 ∧
    readH (jsDictSet ⟨[("ctx", .mk 0 "ctx" []), ("p", .mk 1 "p" [])], []⟩
        [[], [("secret", .int 7)]] "ctx" "k" (.obj [("__proxy_id", .str "p")])).2 2
      = some [("__proxy_id", .str "p")] ∧
    readH (jsDictSet ⟨[("ctx", .mk 0 "ctx" []), ("p", .mk 1 "p" [])], []⟩
        [[], [("secret", .int 7)]] "ctx" "k" (.obj [("__proxy_id", .str "p")])).2 1
      = some [("secret", .int 7)] := by
  refine ⟨rfl, rfl, ?_, rfl, rfl⟩
  simp

/-- C4: the code evaluated at the claim's scenario. When the host response
parses to a value carrying an `error` field, the guest `callTool` wrapper
returns the raw transport string as a normal value — its deliberate
`throw new Error(...)` is raised inside the same `try` whose `catch` clause
returns the raw string, so the throw never reaches the guest caller; and on
every input whatsoever the wrapper returns normally (never throws). -/
theorem callToolGuest_swallows_error_response
    (parse : String → Option JVal) (raw : String) (parsed : JVal)
    (hparse : parse raw = some parsed)
    (htru : jsTruthy (some parsed) = true)
    (herr : jsTruthy (jsGetField parsed "error") = true) :
    callToolGuestOutcome parse raw = .ok (.str raw) ∧
    (∀ (parse2 : String → Option JVal) (raw2 : String),
      ∃ v, callToolGuestOutcome parse2 raw2 = .ok v) := by
  constructor
  · unfold callToolGuestOutcome callToolTryBody
    rw [hparse]
    simp [htru, herr]
  · intro parse2 raw2
    unfold callToolGuestOutcome
    cases callToolTryBody parse2 raw2 with
    | ok v => exact ⟨v, rfl⟩
    | error e => exact ⟨.str raw2, rfl⟩

/-- Witness for C4: the host answers a `ToolNotFound` response; the guest
receives the raw JSON text back as a string instead of an exception. -/
theorem callToolGuest_swallows_error_response_witness :
    callToolGuestOutcome
      (fun s => if s = "\x7b\"error\": \"ToolNotFound\"\x7d"
        then some (.obj [("error", .str "ToolNotFound")]) else Option.none)
      "\x7b\"error\": \"ToolNotFound\"\x7d"
      = .ok (.str "\x7b\"error\": \"ToolNotFound\"\x7d") := by
  exact (callToolGuest_swallows_error_response _ _
    (.obj [("error", .str "ToolNotFound")]) rfl rfl rfl).1

/-- C5: `_call_tool` with a name absent from the registry never raises: it
returns the structured value with `error = "ToolNotFound"`, `tool` equal to
the requested name, and `available` equal to the registry's current
tool-name list — non-empty whenever any tool is registered, as
`registry_init.py` guarantees by registering the builtin tools at import. -/
theorem callToolHost_unknown_tool
    (reg : List (String × ToolR)) (loads : String → Option JVal)
    (name argsJson : String)
    (habs : registryGet reg name = Option.none)
    (hreg : reg ≠ []) :
    callToolHost reg loads name argsJson
      = .ok (.obj [("error", .str "ToolNotFound"),
                   ("tool", .str name),
                   ("message", .str ("Tool \x27" ++ name ++ "\x27 not found")),
                   ("available", .arr ((registryListAll reg).map .str))]) ∧
    registryListAll reg ≠ [] := by
  constructor
  · unfold callToolHost
    rw [habs]
  · unfold registryListAll keysK
    intro hcontra
    exact hreg (List.map_eq_nil_iff.mp hcontra)

/-- Witness for C5: a registry holding the builtin `quickjs` tool; looking
up `nosuch` yields the ToolNotFound value with the non-empty name list. -/
theorem callToolHost_unknown_tool_witness :
    callToolHost [("quickjs", ⟨.obj [], fun _ => .ok .null⟩)]
        (fun _ => Option.none) "nosuch" ""
      = .ok (.obj [("error", .str "ToolNotFound"),
                   ("tool", .str "nosuch"),
                   ("message", .str "Tool \x27nosuch\x27 not found"),
                   ("available", .arr [.str "quickjs"])]) := by
  exact (callToolHost_unknown_tool [("quickjs", ⟨.obj [], fun _ => .ok .null⟩)]
    (fun _ => Option.none) "nosuch" "" rfl (by simp)).1

theorem joinParts_append_last :
    ∀ (l : List String) (x : String), l ≠ [] →
      joinParts (l ++ [x]) = joinParts l ++ ",\n  " ++ x
  | [], _, hne => absurd rfl hne
  | [s], x, _ => rfl
  | s :: t :: rest, x, _ => by
      have ih := joinParts_append_last (t :: rest) x (by simp)
      show s ++ ",\n  " ++ joinParts ((t :: rest) ++ [x]) = _
      rw [ih]
      simp [joinParts, String.append_assoc]

/-- C1 (amended): when `inherit_from` is set to a parent name, the wrapped
source contains — inside the `context` literal, bound to the field `data` —
an eagerly evaluated call `callTool("<parent>", <params-json>)` whose
argument text is exactly the JSON serialization of the child's own incoming
parameters; no `callSuper` helper is generated. -/
theorem wrapJavascriptCode_eager_inherit
    (code : String) (params userInfo systemMetadata : List (String × JVal))
    (parent : String) (hpne : parent ≠ "") :
    ∃ pre post,
      wrapJavascriptCode code params userInfo systemMetadata (some parent)
        = pre ++ ("data: (() => \x7b "
            ++ ("const data = callTool(\"" ++ parent ++ "\", "
                ++ dumpsJ (.obj params) ++ ");")
            ++ " return data; \x7d)()") ++ post := by
  have hds : ("const data = callTool(\"" ++ parent ++ "\", "
      ++ dumpsJ (.obj params) ++ ");" : String) ≠ "" := by
    intro hemp
    have hlen := congrArg String.length hemp
    simp only [String.length_append] at hlen
    have h1 : String.length "const data = callTool(\"" = 23 := rfl
    have h2 : String.length "" = 0 := rfl
    omega
  unfold wrapJavascriptCode
  simp only [if_neg hpne, if_neg hds]
  by_cases hm : (if userInfo.isEmpty then systemMetadata
      else updateK systemMetadata userInfo).isEmpty = true <;>
    by_cases hex : containsSub code "function execute" = true <;>
      simp only [hm, hex, if_true, if_false, Bool.false_eq_true, ite_true, ite_false]
  · exact ⟨"\n" ++ "const context = \x7b\n  " ++ ("args: " ++ dumpsJ (.obj params)) ++ ",\n  ",
      "\n\x7d;" ++ "\n" ++ code ++ "\nreturn execute(context);\n",
      by simp only [joinParts, String.append_assoc]⟩
  · exact ⟨"\n" ++ "const context = \x7b\n  " ++ ("args: " ++ dumpsJ (.obj params)) ++ ",\n  ",
      "\n\x7d;" ++ "\n" ++ code ++ "\n",
      by simp only [joinParts, String.append_assoc]⟩
  · exact ⟨"\n" ++ "const context = \x7b\n  " ++ ("args: " ++ dumpsJ (.obj params)) ++ ",\n  "
        ++ ("user_info: " ++ dumpsJ (.obj (if userInfo.isEmpty then systemMetadata
              else updateK systemMetadata userInfo))) ++ ",\n  ",
      "\n\x7d;" ++ "\n" ++ code ++ "\nreturn execute(context);\n",
      by simp only [joinParts, String.append_assoc]⟩
  · exact ⟨"\n" ++ "const context = \x7b\n  " ++ ("args: " ++ dumpsJ (.obj params)) ++ ",\n  "
        ++ ("user_info: " ++ dumpsJ (.obj (if userInfo.isEmpty then systemMetadata
              else updateK systemMetadata userInfo))) ++ ",\n  ",
      "\n\x7d;" ++ "\n" ++ code ++ "\n",
      by simp only [joinParts, String.append_assoc]⟩

/-- Witness for C1 (amended): tool B inherits from `"A"` with empty
parameters; the wrapped source embeds `callTool("A", {})` eagerly. -/
theorem wrapJavascriptCode_eager_inherit_witness :
    ∃ pre post,
      wrapJavascriptCode "function execute(context) \x7b return 1; \x7d" [] [] [] (some "A")
        = pre ++ ("data: (() => \x7b "
            ++ ("const data = callTool(\"" ++ "A" ++ "\", " ++ dumpsJ (.obj []) ++ ");")
            ++ " return data; \x7d)()") ++ post := by
  exact wrapJavascriptCode_eager_inherit
    "function execute(context) \x7b return 1; \x7d" [] [] [] "A" (by decide)

set_option maxRecDepth 40000 in
/-- Counterexample for C1 as stated: tool B declares `inherit_from = "A"`;
the wrapped source produced for it contains no occurrence of `callSuper` at
all, so no zero-argument `callSuper()` is defined (a guest call to
`callSuper()` would hit an undefined identifier); what is produced instead
is the eagerly evaluated `const data = callTool("A", {})`. -/
theorem wrapJavascriptCode_no_callSuper_cex :
    containsSub (wrapJavascriptCode "function execute(context) \x7b return 1; \x7d"
        [] [] [] (some "A")) "callSuper" = false ∧
    containsSub (wrapJavascriptCode "function execute(context) \x7b return 1; \x7d"
        [] [] [] (some "A")) "const data = callTool(\"A\", \x7b\x7d);" = true := by
  exact ⟨rfl, rfl⟩

/-! ## Heap-extension lemmas for the heap-level default filling -/

theorem fillH_extends_core : ∀ (n : Nat),
    (∀ (s : JVal) (v : PyVal) (h : Heap), 2 * sizeOf s ≤ n →
      extendsH h (fillObjectDefaultsH s v h).2) ∧
    (∀ (props : List (String × JVal)) (r : HDict) (h : Heap), 2 * sizeOf props + 1 ≤ n →
      extendsH h (fillPropsListH props r h).2) ∧
    (∀ (p : String) (ps : JVal) (r : HDict) (h : Heap), 2 * sizeOf ps + 1 ≤ n →
      extendsH h (fillStepH p ps r h).2) := by
  intro n
  induction n using Nat.strong_induction_on with
  | _ n ih =>
    refine ⟨?_, ?_, ?_⟩
    · intro s v h hn
      cases v with
      | ref a =>
          simp only [fillObjectDefaultsH]
          split
          case h_1 props heq =>
            have hsz := getJ_sizeOf heq
            simp only [JVal.obj.sizeOf_spec] at hsz
            have hlt : 2 * sizeOf props + 1 < n := by omega
            split
            case isTrue =>
              split
              case h_1 dflt hgd =>
                exact extendsH_trans (materializeF_extends _ _) (extendsH_alloc _ _)
              case h_2 =>
                exact extendsH_alloc _ _
            case isFalse =>
              split
              case h_1 dflt hgd =>
                exact extendsH_trans (materializeF_extends _ _)
                  (extendsH_trans ((ih _ hlt).2.1 props _ _ le_rfl)
                    (extendsH_alloc _ _))
              case h_2 =>
                exact extendsH_trans ((ih _ hlt).2.1 props _ _ le_rfl)
                  (extendsH_alloc _ _)
          case h_2 =>
            split
            case h_1 dflt hgd =>
              exact extendsH_trans (materializeF_extends _ _) (extendsH_alloc _ _)
            case h_2 =>
              exact extendsH_alloc _ _
      | none =>
          simp only [fillObjectDefaultsH]
          exact extendsH_refl h
      | bool b =>
          simp only [fillObjectDefaultsH]
          exact extendsH_refl h
      | int m =>
          simp only [fillObjectDefaultsH]
          exact extendsH_refl h
      | str s2 =>
          simp only [fillObjectDefaultsH]
          exact extendsH_refl h
      | list xs =>
          simp only [fillObjectDefaultsH]
          exact extendsH_refl h
    · intro props r h hn
      cases props with
      | nil =>
          simp only [fillPropsListH]
          exact extendsH_refl h
      | cons e rest =>
          obtain ⟨p, ps⟩ := e
          simp only [fillPropsListH]
          have hsz1 : sizeOf ps < sizeOf ((p, ps) :: rest) := by
            simp only [Prod.mk.sizeOf_spec, List.cons.sizeOf_spec]
            omega
          have hsz2 : sizeOf rest < sizeOf ((p, ps) :: rest) := by
            simp only [Prod.mk.sizeOf_spec, List.cons.sizeOf_spec]
            omega
          have hstep : 2 * sizeOf ps + 1 < n := by omega
          have hrest : 2 * sizeOf rest + 1 < n := by omega
          exact extendsH_trans ((ih _ hstep).2.2 p ps r h le_rfl)
            ((ih _ hrest).2.1 rest _ _ le_rfl)
    · intro p ps r h hn
      simp only [fillStepH]
      split
      case h_1 =>
        split
        case h_1 d hgd => exact materializeV_extends _ _
        case h_2 => exact extendsH_refl h
      case h_2 b heq =>
        split
        case isTrue =>
          exact (ih (2 * sizeOf ps) (by omega)).1 ps (.ref b) h le_rfl
        case isFalse => exact extendsH_refl h
      case h_3 => exact extendsH_refl h

theorem fillObjectDefaultsH_extends (s : JVal) (v : PyVal) (h : Heap) :
    extendsH h (fillObjectDefaultsH s v h).2 :=
  (fillH_extends_core (2 * sizeOf s)).1 s v h le_rfl

theorem fillPropsListH_extends (props : List (String × JVal)) (r : HDict) (h : Heap) :
    extendsH h (fillPropsListH props r h).2 :=
  (fillH_extends_core (2 * sizeOf props + 1)).2.1 props r h le_rfl

/-- C10 (amended): the heap-level `fill_default_args` and
`fill_object_defaults` never mutate their inputs — every mapping present in
the heap before the call (the argument dict and every mapping nested inside
it included) reads back unchanged afterwards — and whenever the schema
declares a non-empty `properties` map the result is a freshly allocated
mapping (its address lies past the old heap end, `readH h r = none`). When
the schema is empty or has no `properties`, however, the returned value is
the input mapping itself, not a fresh copy (see the counterexample). -/
theorem fillDefaultArgsH_no_mutation :
    (∀ (s : JVal) (aRef : Nat) (h : Heap), extendsH h (fillDefaultArgsH s aRef h).2) ∧
    (∀ (s : JVal) (v : PyVal) (h : Heap), extendsH h (fillObjectDefaultsH s v h).2) ∧
    (∀ (s : JVal) (aRef : Nat) (h : Heap) (props : List (String × JVal)),
      getJ s "properties" = some (.obj props) → props ≠ [] →
      ∃ r h2, fillDefaultArgsH s aRef h = (.ref r, h2) ∧ h.length ≤ r ∧
        readH h r = Option.none) := by
  refine ⟨?_, fillObjectDefaultsH_extends, ?_⟩
  · intro s aRef h
    simp only [fillDefaultArgsH]
    split
    · split
      · exact extendsH_refl h
      · exact extendsH_trans (fillPropsListH_extends _ _ _) (extendsH_alloc _ _)
    · exact extendsH_refl h
  · intro s aRef h props hgp hne
    have hprops_ne : props.isEmpty = false := by
      cases props with
      | nil => exact absurd rfl hne
      | cons e rest => rfl
    have hxt := fillPropsListH_extends props ((readH h aRef).getD []) h
    have hlen := extendsH_length hxt
    refine ⟨(fillPropsListH props ((readH h aRef).getD []) h).2.length,
      (allocH (fillPropsListH props ((readH h aRef).getD []) h).2
        (fillPropsListH props ((readH h aRef).getD []) h).1).2, ?_, hlen, ?_⟩
    · simp only [fillDefaultArgsH, hgp, hprops_ne, Bool.false_eq_true, if_false]
      rfl
    · rw [readH, List.get?_eq_none.mpr hlen]

/-- Witness for C10 (amended): the docstring example — schema with
properties `command` and `timeout` (default 60), argument dict
`{"command": "ls"}` at address 0. The input dict is unchanged after the
call, and the result is a fresh mapping. -/
theorem fillDefaultArgsH_no_mutation_witness :
    readH (fillDefaultArgsH
        (.obj [("type", .str "object"), ("properties", .obj
          [("command", .obj [("type", .str "string")]),
           ("timeout", .obj [("type", .str "integer"), ("default", .num 60)])])])
        0 [[("command", .str "ls")]]).2 0
      = some [("command", .str "ls")] ∧
    (∃ r h2, fillDefaultArgsH
        (.obj [("type", .str "object"), ("properties", .obj
          [("command", .obj [("type", .str "string")]),
           ("timeout", .obj [("type", .str "integer"), ("default", .num 60)])])])
        0 [[("command", .str "ls")]] = (.ref r, h2) ∧
      (1 : Nat) ≤ r ∧ readH [[("command", .str "ls")]] r = Option.none) := by
  constructor
  · exact fillDefaultArgsH_no_mutation.1
      (.obj [("type", .str "object"), ("properties", .obj
        [("command", .obj [("type", .str "string")]),
         ("timeout", .obj [("type", .str "integer"), ("default", .num 60)])])])
      0 [[("command", .str "ls")]] 0 [("command", .str "ls")] rfl
  · exact fillDefaultArgsH_no_mutation.2.2
      (.obj [("type", .str "object"), ("properties", .obj
        [("command", .obj [("type", .str "string")]),
         ("timeout", .obj [("type", .str "integer"), ("default", .num 60)])])])
      0 [[("command", .str "ls")]] _ rfl (by simp)

/-- Counterexample for C10 as stated: with an empty schema (equally, one
without `properties`) the filled result is not a fresh mapping —
`fill_default_args` returns the argument dict itself (address 0, already
live in the heap), so caller and result alias the same object. -/
theorem fillDefaultArgsH_not_fresh_cex :
    fillDefaultArgsH (.obj []) 0 [[("x", .int 1)]] = (.ref 0, [[("x", .int 1)]]) ∧
    readH [[("x", .int 1)]] 0 = some [("x", .int 1)] := ⟨rfl, rfl⟩

/-! ## Algebra of `setK`/`updateK` on dicts with distinct keys

Used to settle idempotence of the parameter default filling. -/

theorem lookupK_append {κ α : Type} [DecidableEq κ] :
    ∀ (l1 l2 : List (κ × α)) (k : κ),
      lookupK (l1 ++ l2) k
        = match lookupK l1 k with
          | some v => some v
          | Option.none => lookupK l2 k
  | [], l2, k => by simp [lookupK]
  | (k0, w) :: rest, l2, k => by
      by_cases hk : k0 = k
      · simp [lookupK, hk]
      · simp only [List.cons_append, lookupK, if_neg hk]
        exact lookupK_append rest l2 k

theorem keysK_setK_present {κ α : Type} [DecidableEq κ] :
    ∀ (m : List (κ × α)) (k : κ) (v : α), hasK m k = true →
      keysK (setK m k v) = keysK m
  | [], k, v, hk => by simp [hasK, lookupK] at hk
  | (k0, w) :: rest, k, v, hk => by
      by_cases h0 : k0 = k
      · simp [setK, h0, keysK]
      · have hk2 : hasK rest k = true := by
          simpa [hasK, lookupK, h0] using hk
        simp only [setK, if_neg h0, keysK, List.map_cons]
        exact congrArg _ (keysK_setK_present rest k v hk2)

theorem setK_absent_eq_append {κ α : Type} [DecidableEq κ] :
    ∀ (m : List (κ × α)) (k : κ) (v : α), hasK m k = false →
      setK m k v = m ++ [(k, v)]
  | [], k, v, _ => rfl
  | (k0, w) :: rest, k, v, hk => by
      by_cases h0 : k0 = k
      · simp [hasK, lookupK, h0] at hk
      · have hk2 : hasK rest k = false := by
          simpa [hasK, lookupK, h0] using hk
        simp only [setK, if_neg h0, List.cons_append]
        exact congrArg _ (setK_absent_eq_append rest k v hk2)

theorem hasK_setK {κ α : Type} [DecidableEq κ] :
    ∀ (m : List (κ × α)) (k x : κ) (v : α),
      hasK (setK m k v) x = (hasK m x || decide (x = k))
  | [], k, x, v => by
      simp only [setK, hasK, lookupK]
      by_cases hx : k = x
      · subst hx
        simp
      · have hx2 : ¬(x = k) := fun hcontra => hx hcontra.symm
        simp [hx, hx2]
  | (k0, w) :: rest, k, x, v => by
      by_cases h0 : k0 = k
      · subst h0
        simp only [setK, if_pos rfl, hasK, lookupK]
        by_cases hx : k0 = x
        · simp [hx]
        · have hx2 : ¬(x = k0) := fun hcontra => hx hcontra.symm
          simp [hx, hx2]
      · simp only [setK, if_neg h0, hasK, lookupK]
        by_cases hx : k0 = x
        · simp [hx]
        · simp only [if_neg hx]
          exact hasK_setK rest k x v

theorem mem_key_of_mem {κ α : Type} {m : List (κ × α)} {e : κ × α} (he : e ∈ m) :
    e.1 ∈ keysK m := List.mem_map_of_mem _ he

theorem lookupK_of_mem_nodup {κ α : Type} [DecidableEq κ] :
    ∀ (m : List (κ × α)) (k : κ) (v : α), nodupKeys m → (k, v) ∈ m →
      lookupK m k = some v
  | [], k, v, _, hm => absurd hm (List.not_mem_nil _)
  | (k0, w) :: rest, k, v, hnd, hm => by
      rcases List.mem_cons.mp hm with heq | htl
      · cases heq
        simp [lookupK]
      · have hk : k0 ≠ k := by
          intro h0
          subst h0
          have : k0 ∈ keysK rest := mem_key_of_mem htl
          exact (List.nodup_cons.mp hnd).1 this
        have hnd2 : nodupKeys rest := (List.nodup_cons.mp hnd).2
        simp only [lookupK, if_neg hk]
        exact lookupK_of_mem_nodup rest k v hnd2 htl

theorem nodupKeys_setK {κ α : Type} [DecidableEq κ] :
    ∀ (m : List (κ × α)) (k : κ) (v : α), nodupKeys m → nodupKeys (setK m k v)
  | [], k, v, _ => by simp [setK, nodupKeys, keysK]
  | (k0, w) :: rest, k, v, hnd => by
      obtain ⟨h0, hrest⟩ := List.nodup_cons.mp hnd
      by_cases hk : k0 = k
      · simpa [setK, hk, nodupKeys, keysK] using hnd
      · cases hmem : hasK rest k with
        | true =>
            have hkeys := keysK_setK_present rest k v hmem
            simp only [setK, if_neg hk, nodupKeys, keysK, List.map_cons, List.nodup_cons]
            constructor
            · rw [show List.map Prod.fst (setK rest k v) = keysK (setK rest k v) from rfl,
                hkeys]
              exact h0
            · exact nodupKeys_setK rest k v hrest
        | false =>
            have happ := setK_absent_eq_append rest k v hmem
            simp only [setK, if_neg hk, nodupKeys, keysK, List.map_cons, List.nodup_cons, happ]
            constructor
            · simp only [List.map_append, List.mem_append, List.map_cons, List.map_nil,
                List.mem_singleton]
              rintro (hin | hin)
              · exact h0 hin
              · exact hk hin
            · simp only [List.map_append, List.nodup_append, List.map_cons, List.map_nil]
              refine ⟨hrest, List.nodup_singleton _, ?_⟩
              intro x hx hx2
              simp only [List.mem_singleton] at hx2
              subst hx2
              rw [show List.map Prod.fst rest = keysK rest from rfl] at hx
              rw [← hasK_iff_mem_keys rest x] at hx
              rw [hmem] at hx
              exact Bool.noConfusion hx

theorem updateK_cons {κ α : Type} [DecidableEq κ] (m : List (κ × α)) (k : κ) (v : α)
    (rest : List (κ × α)) :
    updateK m ((k, v) :: rest) = updateK (setK m k v) rest := rfl

theorem nodupKeys_updateK {κ α : Type} [DecidableEq κ] :
    ∀ (other m : List (κ × α)), nodupKeys m → nodupKeys (updateK m other)
  | [], m, hnd => hnd
  | (k, v) :: rest, m, hnd => by
      rw [updateK_cons]
      exact nodupKeys_updateK rest _ (nodupKeys_setK m k v hnd)

theorem lookupK_eq_none {κ α : Type} [DecidableEq κ] {m : List (κ × α)} {k : κ}
    (hk : hasK m k = false) : lookupK m k = Option.none := by
  cases hl : lookupK m k with
  | none => rfl
  | some v =>
      rw [hasK, hl] at hk
      exact Bool.noConfusion hk

theorem map_setK_no_key {κ α : Type} [DecidableEq κ] :
    ∀ (m : List (κ × α)) (k : κ) (v : α), ¬ k ∈ keysK m →
      m.map (fun kv => if kv.1 = k then (k, v) else kv) = m
  | [], _, _, _ => rfl
  | (k0, w) :: rest, k, v, hmem => by
      have h0 : ¬ (k0 = k) := by
        intro h0
        exact hmem (by simp [keysK, h0])
      have hrest : ¬ k ∈ keysK rest := by
        intro hin
        exact hmem (by simp [keysK] at hin ⊢; exact Or.inr hin)
      simp only [List.map_cons, if_neg h0]
      exact congrArg _ (map_setK_no_key rest k v hrest)

theorem setK_present_eq_map {κ α : Type} [DecidableEq κ] :
    ∀ (m : List (κ × α)) (k : κ) (v : α), nodupKeys m → hasK m k = true →
      setK m k v = m.map (fun kv => if kv.1 = k then (k, v) else kv)
  | [], k, v, _, hk => by simp [hasK, lookupK] at hk
  | (k0, w) :: rest, k, v, hnd, hk => by
      obtain ⟨h0, hrest⟩ := List.nodup_cons.mp hnd
      by_cases hk0 : k0 = k
      · subst hk0
        have hnok : ¬ k0 ∈ keysK rest := h0
        simp only [setK, if_pos rfl, List.map_cons, if_pos rfl]
        exact congrArg _ (map_setK_no_key rest k0 v hnok).symm
      · have hk2 : hasK rest k = true := by
          simpa [hasK, lookupK, hk0] using hk
        simp only [setK, if_neg hk0, List.map_cons, if_neg hk0]
        exact congrArg _ (setK_present_eq_map rest k v hrest hk2)

theorem updateK_char {κ α : Type} [DecidableEq κ] :
    ∀ (m d : List (κ × α)), nodupKeys d → nodupKeys m →
      updateK d m
        = d.map (fun kv => (kv.1, (lookupK m kv.1).getD kv.2))
          ++ m.filter (fun kv => !(hasK d kv.1))
  | [], d, hd, _ => by
      have hid : (fun (kv : κ × α) => (kv.1, (lookupK ([] : List (κ × α)) kv.1).getD kv.2))
          = id := funext fun kv => rfl
      simp [updateK, hid]
  | (k, v) :: m2, d, hd, hm => by
      obtain ⟨hknot, hm2⟩ := List.nodup_cons.mp hm
      rw [updateK_cons]
      rw [updateK_char m2 (setK d k v) (nodupKeys_setK d k v hd) hm2]
      have hlkm2 : lookupK m2 k = Option.none := by
        apply lookupK_eq_none
        cases hh : hasK m2 k with
        | false => rfl
        | true => exact absurd ((hasK_iff_mem_keys m2 k).mp hh) hknot
      have hfil : m2.filter (fun kv => !(hasK (setK d k v) kv.1))
          = m2.filter (fun kv => !(hasK d kv.1)) := by
        apply List.filter_congr
        intro kv hkv
        have hne : ¬ (kv.1 = k) := by
          intro hcontra
          have hmem2 : kv.1 ∈ keysK m2 := mem_key_of_mem hkv
          rw [hcontra] at hmem2
          exact hknot hmem2
        rw [hasK_setK d k kv.1 v]
        simp [hne]
      rw [hfil]
      cases hk : hasK d k with
      | true =>
          rw [setK_present_eq_map d k v hd hk, List.map_map]
          have hmap : d.map ((fun kv => ((kv.1 : κ), (lookupK m2 kv.1).getD kv.2)) ∘
              (fun kv => if kv.1 = k then (k, v) else kv))
              = d.map (fun kv => (kv.1, (lookupK ((k, v) :: m2) kv.1).getD kv.2)) := by
            apply List.map_congr_left
            intro kv _
            by_cases hkv : kv.1 = k
            · simp [Function.comp, hkv, lookupK, hlkm2]
            · have hne : ¬ (k = kv.1) := fun hcontra => hkv hcontra.symm
              simp [Function.comp, hkv, lookupK, hne]
          rw [hmap]
          congr 1
          rw [List.filter_cons]
          simp [hk]
      | false =>
          rw [setK_absent_eq_append d k v hk, List.map_append]
          have hmapd : d.map (fun kv => ((kv.1 : κ), (lookupK m2 kv.1).getD kv.2))
              = d.map (fun kv => (kv.1, (lookupK ((k, v) :: m2) kv.1).getD kv.2)) := by
            apply List.map_congr_left
            intro kv hkv
            have hne : ¬ (k = kv.1) := by
              intro hcontra
              subst hcontra
              have : kv.1 ∈ keysK d := mem_key_of_mem hkv
              rw [← hasK_iff_mem_keys] at this
              rw [this] at hk
              exact Bool.noConfusion hk
            simp only [lookupK, if_neg hne]
          rw [hmapd]
          have hsingle : ([(k, v)] : List (κ × α)).map
              (fun kv => ((kv.1 : κ), (lookupK m2 kv.1).getD kv.2)) = [(k, v)] := by
            simp [hlkm2]
          rw [hsingle, List.filter_cons]
          simp only [hk, Bool.not_false, if_pos]
          rw [List.append_assoc, List.singleton_append]

theorem updateK_self {κ α : Type} [DecidableEq κ] (d : List (κ × α))
    (hd : nodupKeys d) : updateK d d = d := by
  rw [updateK_char d d hd hd]
  have hmap : d.map (fun kv => (kv.1, (lookupK d kv.1).getD kv.2)) = d := by
    have : ∀ kv ∈ d, (kv.1, (lookupK d kv.1).getD kv.2) = kv := by
      intro kv hkv
      rw [lookupK_of_mem_nodup d kv.1 kv.2 hd hkv]
      rfl
    calc d.map (fun kv => (kv.1, (lookupK d kv.1).getD kv.2))
        = d.map id := List.map_congr_left this
      _ = d := List.map_id d
  have hfil : d.filter (fun kv => !(hasK d kv.1)) = [] := by
    rw [List.filter_eq_nil_iff]
    intro kv hkv
    have : hasK d kv.1 = true := (hasK_iff_mem_keys d kv.1).mpr (mem_key_of_mem hkv)
    simp [this]
  rw [hmap, hfil, List.append_nil]

theorem updateK_idem {κ α : Type} [DecidableEq κ] (d m : List (κ × α))
    (hd : nodupKeys d) (hm : nodupKeys m) :
    updateK d (updateK d m) = updateK d m := by
  have hndu : nodupKeys (updateK d m) := nodupKeys_updateK m d hd
  have hu1 := updateK_char m d hd hm
  rw [updateK_char (updateK d m) d hd hndu]
  have hmap : d.map (fun kv => (kv.1, (lookupK (updateK d m) kv.1).getD kv.2))
      = d.map (fun kv => (kv.1, (lookupK m kv.1).getD kv.2)) := by
    apply List.map_congr_left
    intro kv hkv
    have hpair : (kv.1, (lookupK m kv.1).getD kv.2) ∈ updateK d m := by
      rw [hu1]
      exact List.mem_append_left _
        (List.mem_map_of_mem (fun kv => (kv.1, (lookupK m kv.1).getD kv.2)) hkv)
    rw [lookupK_of_mem_nodup _ _ _ hndu hpair]
    rfl
  have hfil : (updateK d m).filter (fun kv => !(hasK d kv.1))
      = m.filter (fun kv => !(hasK d kv.1)) := by
    rw [hu1, List.filter_append]
    have h1 : (d.map (fun kv => (kv.1, (lookupK m kv.1).getD kv.2))).filter
        (fun kv => !(hasK d kv.1)) = [] := by
      rw [List.filter_eq_nil_iff]
      intro kv hkv
      obtain ⟨kv0, hkv0, hkveq⟩ := List.mem_map.mp hkv
      have hin : hasK d kv.1 = true := by
        rw [← hkveq]
        exact (hasK_iff_mem_keys d kv0.1).mpr (mem_key_of_mem hkv0)
      simp [hin]
    have h2 : (m.filter (fun kv => !(hasK d kv.1))).filter
        (fun kv => !(hasK d kv.1)) = m.filter (fun kv => !(hasK d kv.1)) := by
      apply List.filter_eq_self.mpr
      intro kv hkv
      exact (List.mem_filter.mp hkv).2
    rw [h1, h2, List.nil_append]
  rw [hmap, hfil, hu1]

/-! ## Well-formed JSON trees (every object has pairwise-distinct keys, as
Python dicts always do) and flat property schemas -/

mutual

/-- Every object reachable in the tree has pairwise-distinct keys. -/
def wfJ : JVal → Bool
  | .obj fs => decide (nodupKeys fs) && wfJF fs
  | .arr xs => wfJL xs
  | _ => true

/-- Well-formedness of every element. -/
def wfJL : List JVal → Bool
  | [] => true
  | x :: rest => wfJ x && wfJL rest

/-- Well-formedness of every field value. -/
def wfJF : List (String × JVal) → Bool
  | [] => true
  | (_, v) :: rest => wfJ v && wfJF rest

end

/-- Property schemas that are objects without a nested `properties` entry:
the flat-schema condition of the amended idempotence claim. -/
def flatPropSchemas (props : List (String × JVal)) : Bool :=
  props.all (fun kv => match kv.2 with
    | .obj psf => !(hasK psf "properties")
    | _ => false)

theorem wfJF_of_mem : ∀ {fs : List (String × JVal)} {k : String} {v : JVal},
    wfJF fs = true → (k, v) ∈ fs → wfJ v = true := by
  intro fs
  induction fs with
  | nil => intro k v _ hm; exact absurd hm (List.not_mem_nil _)
  | cons e rest ih =>
      obtain ⟨k0, v0⟩ := e
      intro k v hwf hm
      rw [wfJF, Bool.and_eq_true] at hwf
      rcases List.mem_cons.mp hm with heq | htl
      · cases heq
        exact hwf.1
      · exact ih hwf.2 htl

theorem lookupK_mem : ∀ {κ α : Type} [DecidableEq κ] {m : List (κ × α)} {k : κ} {v : α},
    lookupK m k = some v → (k, v) ∈ m := by
  intro κ α _ m
  induction m with
  | nil => intro k v hl; simp [lookupK] at hl
  | cons e rest ih =>
      obtain ⟨k0, v0⟩ := e
      intro k v hl
      rw [lookupK] at hl
      by_cases hk : k0 = k
      · rw [if_pos hk] at hl
        cases hl
        subst hk
        exact List.mem_cons_self _ _
      · rw [if_neg hk] at hl
        exact List.mem_cons_of_mem _ (ih hl)

theorem wfJ_obj_parts {fs : List (String × JVal)} (hwf : wfJ (.obj fs) = true) :
    nodupKeys fs ∧ wfJF fs = true := by
  rw [wfJ, Bool.and_eq_true, decide_eq_true_eq] at hwf
  exact hwf

theorem wfJ_getJ {s v : JVal} {k : String} (hwf : wfJ s = true)
    (hget : getJ s k = some v) : wfJ v = true := by
  cases s with
  | obj fs =>
      rw [getJ] at hget
      exact wfJF_of_mem (wfJ_obj_parts hwf).2 (lookupK_mem hget)
  | null => simp [getJ] at hget
  | bool b => simp [getJ] at hget
  | num n => simp [getJ] at hget
  | str s2 => simp [getJ] at hget
  | arr xs => simp [getJ] at hget

theorem wfJF_setK {fs : List (String × JVal)} {k : String} {v : JVal}
    (hwf : wfJF fs = true) (hv : wfJ v = true) : wfJF (setK fs k v) = true := by
  induction fs with
  | nil => simp [setK, wfJF, hv]
  | cons e rest ih =>
      obtain ⟨k0, v0⟩ := e
      rw [wfJF, Bool.and_eq_true] at hwf
      by_cases hk : k0 = k
      · simp only [setK, if_pos hk, wfJF, Bool.and_eq_true]
        exact ⟨hv, hwf.2⟩
      · simp only [setK, if_neg hk, wfJF, Bool.and_eq_true]
        exact ⟨hwf.1, ih hwf.2⟩

theorem wfJF_updateK {d m : List (String × JVal)}
    (hd : wfJF d = true) (hm : wfJF m = true) : wfJF (updateK d m) = true := by
  induction m generalizing d with
  | nil => exact hd
  | cons e rest ih =>
      obtain ⟨k, v⟩ := e
      rw [wfJF, Bool.and_eq_true] at hm
      rw [updateK_cons]
      exact ih (wfJF_setK hd hm.1) hm.2


theorem fillStep_eq (p : String) (ps : JVal) (r : List (String × JVal)) :
    fillStep p ps r =
      match lookupK r p with
      | Option.none =>
          match getJ ps "default" with
          | some d => setK r p d
          | Option.none => r
      | some (.obj mv) =>
          if hasJ ps "properties" || hasJ ps "default" then
            setK r p (fillObjectDefaults ps (.obj mv))
          else r
      | some _ => r := by
  rw [fillStep]

theorem fillPropsList_eq2 (p : String) (ps : JVal) (rest : List (String × JVal))
    (r : List (String × JVal)) :
    fillPropsList ((p, ps) :: rest) r = fillPropsList rest (fillStep p ps r) := by
  rw [fillPropsList]

theorem fillPropsList_nil (r : List (String × JVal)) :
    fillPropsList [] r = r := by
  rw [fillPropsList]

theorem fillStep_lookup_other {p q : String} (ps : JVal) (r : List (String × JVal))
    (hne : q ≠ p) : lookupK (fillStep p ps r) q = lookupK r q := by
  rw [fillStep_eq]
  cases hlk : lookupK r p with
  | none =>
      cases hgd : getJ ps "default" with
      | none => rfl
      | some d => exact lookupK_setK_ne r p q d hne
  | some v =>
      cases v with
      | obj mv =>
          by_cases hc : (hasJ ps "properties" || hasJ ps "default") = true
          · simp only [hc, if_true]
            exact lookupK_setK_ne r p q _ hne
          · rw [Bool.not_eq_true] at hc
            simp only [hc, Bool.false_eq_true, if_false]
      | null => rfl
      | bool b => rfl
      | num n => rfl
      | str s => rfl
      | arr xs => rfl

theorem fillStep_lookup_self_congr {p : String} (ps : JVal)
    (r1 r2 : List (String × JVal)) (hl : lookupK r1 p = lookupK r2 p) :
    lookupK (fillStep p ps r1) p = lookupK (fillStep p ps r2) p := by
  rw [fillStep_eq, fillStep_eq, ← hl]
  cases hlk : lookupK r1 p with
  | none =>
      cases hgd : getJ ps "default" with
      | none => exact hl
      | some d => rw [lookupK_setK_self, lookupK_setK_self]
  | some v =>
      cases v with
      | obj mv =>
          by_cases hc : (hasJ ps "properties" || hasJ ps "default") = true
          · simp only [hc, if_true]
            rw [lookupK_setK_self, lookupK_setK_self]
          · rw [Bool.not_eq_true] at hc
            simp only [hc, Bool.false_eq_true, if_false]
            exact hl
      | null => exact hl
      | bool b => exact hl
      | num n => exact hl
      | str s => exact hl
      | arr xs => exact hl

theorem fillPropsList_lookup_absent {q : String} :
    ∀ (props : List (String × JVal)) (r : List (String × JVal)),
      q ∉ keysK props →
      lookupK (fillPropsList props r) q = lookupK r q
  | [], r, _ => by rw [fillPropsList_nil]
  | (p, ps) :: rest, r, hq => by
      rw [fillPropsList_eq2]
      simp only [keysK, List.map_cons, List.mem_cons, not_or] at hq
      rw [fillPropsList_lookup_absent rest _ hq.2]
      exact fillStep_lookup_other ps r hq.1

theorem nodupKeys_cons {κ α : Type} {p : κ} {ps : α} {rest : List (κ × α)}
    (h : nodupKeys ((p, ps) :: rest)) : p ∉ keysK rest ∧ nodupKeys rest := by
  simp only [nodupKeys, keysK, List.map_cons, List.nodup_cons] at h
  exact h

theorem fillPropsList_lookup_mem {p : String} {ps : JVal} :
    ∀ (props : List (String × JVal)) (r : List (String × JVal)),
      nodupKeys props → (p, ps) ∈ props →
      lookupK (fillPropsList props r) p = lookupK (fillStep p ps r) p
  | [], r, _, hm => absurd hm (List.not_mem_nil _)
  | (q, qs) :: rest, r, hnd, hm => by
      obtain ⟨hqnotin, hndrest⟩ := nodupKeys_cons hnd
      rw [fillPropsList_eq2]
      rcases List.mem_cons.mp hm with heq | htl
      · injection heq with h1 h2
        subst h1
        subst h2
        exact fillPropsList_lookup_absent rest _ hqnotin
      · have hpin : p ∈ keysK rest := mem_key_of_mem htl
        have hpq : p ≠ q := fun hc => hqnotin (hc ▸ hpin)
        rw [fillPropsList_lookup_mem rest _ hndrest htl]
        exact fillStep_lookup_self_congr ps _ r (fillStep_lookup_other qs r hpq)

theorem fillPropsList_fixed :
    ∀ (props : List (String × JVal)) (r : List (String × JVal)),
      (∀ kv ∈ props, fillStep kv.1 kv.2 r = r) →
      fillPropsList props r = r
  | [], r, _ => fillPropsList_nil r
  | (p, ps) :: rest, r, hfix => by
      rw [fillPropsList_eq2]
      have hh := hfix (p, ps) (List.mem_cons_self _ _)
      simp only at hh
      rw [hh]
      exact fillPropsList_fixed rest r (fun kv hkv => hfix kv (List.mem_cons_of_mem _ hkv))

theorem fillObjectDefaults_flat_objdef {psf dd : List (String × JVal)}
    (m : List (String × JVal)) (hflat : hasK psf "properties" = false)
    (hd : lookupK psf "default" = some (.obj dd)) :
    fillObjectDefaults (.obj psf) (.obj m) = .obj (updateK dd m) := by
  rw [fillObjectDefaults]
  have hp : getJ (JVal.obj psf) "properties" = Option.none := by
    rw [getJ]
    exact lookupK_eq_none hflat
  have hd2 : getJ (JVal.obj psf) "default" = some (JVal.obj dd) := by
    rw [getJ]
    exact hd
  simp only [hd2]
  split
  · rename_i props hprops
    rw [hp] at hprops
    cases hprops
  · rfl

theorem fillObjectDefaults_flat_nodef {psf : List (String × JVal)}
    (m : List (String × JVal)) (hflat : hasK psf "properties" = false)
    (hd : ∀ dd, lookupK psf "default" ≠ some (.obj dd)) :
    fillObjectDefaults (.obj psf) (.obj m) = .obj m := by
  rw [fillObjectDefaults]
  have hp : getJ (JVal.obj psf) "properties" = Option.none := by
    rw [getJ]
    exact lookupK_eq_none hflat
  have hbase : (match getJ (JVal.obj psf) "default" with
      | some (JVal.obj d) => updateK d m
      | _ => m) = m := by
    cases hgd : getJ (JVal.obj psf) "default" with
    | none => rfl
    | some d =>
        cases d with
        | obj dd =>
            rw [getJ] at hgd
            exact absurd hgd (hd dd)
        | null => rfl
        | bool b => rfl
        | num n => rfl
        | str s => rfl
        | arr xs => rfl
  simp only [hbase]
  split
  · rename_i props hprops
    rw [hp] at hprops
    cases hprops
  · rfl

theorem fillStep_fixed_after {props : List (String × JVal)}
    (hflat : flatPropSchemas props = true) (hwfp : wfJF props = true)
    {r : List (String × JVal)} (hwfr : wfJF r = true)
    {p : String} {ps : JVal} (hmem : (p, ps) ∈ props) (hnd : nodupKeys props) :
    fillStep p ps (fillPropsList props r) = fillPropsList props r := by
  have hflat2 := (List.all_eq_true.mp hflat) (p, ps) hmem
  obtain ⟨psf, rfl⟩ : ∃ psf, ps = JVal.obj psf := by
    cases ps with
    | obj psf => exact ⟨psf, rfl⟩
    | null => simp at hflat2
    | bool b => simp at hflat2
    | num n => simp at hflat2
    | str s => simp at hflat2
    | arr xs => simp at hflat2
  have hnp : hasK psf "properties" = false := by
    change (!(hasK psf "properties")) = true at hflat2
    rw [Bool.not_eq_true'] at hflat2
    exact hflat2
  have hwfps : wfJ (JVal.obj psf) = true := wfJF_of_mem hwfp hmem
  obtain ⟨hndpsf, hwfpsf⟩ := wfJ_obj_parts hwfps
  have hBprops : hasJ (JVal.obj psf) "properties" = false := by
    change (lookupK psf "properties").isSome = false
    rw [lookupK_eq_none hnp]
    rfl
  have hRp : lookupK (fillPropsList props r) p
      = lookupK (fillStep p (JVal.obj psf) r) p :=
    fillPropsList_lookup_mem props r hnd hmem
  cases hlk : lookupK r p with
  | none =>
      cases hgd : getJ (JVal.obj psf) "default" with
      | none =>
          have hv : lookupK (fillPropsList props r) p = Option.none := by
            rw [hRp]
            simp only [fillStep_eq, hlk, hgd]
          simp only [fillStep_eq, hv, hgd]
      | some d =>
          have hv : lookupK (fillPropsList props r) p = some d := by
            rw [hRp]
            simp only [fillStep_eq, hlk, hgd]
            exact lookupK_setK_self r p d
          cases d with
          | obj dd =>
              obtain ⟨hnddd, _⟩ := wfJ_obj_parts (wfJ_getJ hwfps hgd)
              have hdef : lookupK psf "default" = some (JVal.obj dd) := hgd
              have hBdef : hasJ (JVal.obj psf) "default" = true := by
                rw [hasJ, hgd]
                rfl
              simp only [fillStep_eq, hv, hBprops, hBdef]
              rw [if_pos (by decide),
                fillObjectDefaults_flat_objdef dd hnp hdef,
                updateK_self dd hnddd]
              exact setK_lookup_eq_self _ _ _ hv
          | null => simp only [fillStep_eq, hv]
          | bool b => simp only [fillStep_eq, hv]
          | num n => simp only [fillStep_eq, hv]
          | str s => simp only [fillStep_eq, hv]
          | arr xs => simp only [fillStep_eq, hv]
  | some v =>
      cases v with
      | obj mv =>
          obtain ⟨hndmv, _⟩ := wfJ_obj_parts (wfJF_of_mem hwfr (lookupK_mem hlk))
          by_cases hBdef : hasJ (JVal.obj psf) "default" = true
          · obtain ⟨d, hgd⟩ : ∃ d, getJ (JVal.obj psf) "default" = some d := by
              rw [hasJ] at hBdef
              exact Option.isSome_iff_exists.mp hBdef
            cases d with
            | obj dd =>
                obtain ⟨hnddd, _⟩ := wfJ_obj_parts (wfJ_getJ hwfps hgd)
                have hdef : lookupK psf "default" = some (JVal.obj dd) := hgd
                have hv : lookupK (fillPropsList props r) p
                    = some (JVal.obj (updateK dd mv)) := by
                  rw [hRp]
                  simp only [fillStep_eq, hlk, hBprops, hBdef]
                  rw [if_pos (by decide),
                    fillObjectDefaults_flat_objdef mv hnp hdef]
                  exact lookupK_setK_self r p _
                simp only [fillStep_eq, hv, hBprops, hBdef]
                rw [if_pos (by decide),
                  fillObjectDefaults_flat_objdef (updateK dd mv) hnp hdef,
                  updateK_idem dd mv hnddd hndmv]
                exact setK_lookup_eq_self _ _ _ hv
            | null =>
                have hdne : ∀ dd, lookupK psf "default" ≠ some (JVal.obj dd) := by
                  intro dd hc
                  have hgd2 : lookupK psf "default" = some JVal.null := hgd
                  rw [hgd2] at hc
                  injection hc with h
                  exact JVal.noConfusion h
                have hfo : fillObjectDefaults (JVal.obj psf) (JVal.obj mv)
                    = JVal.obj mv := fillObjectDefaults_flat_nodef mv hnp hdne
                have hv : lookupK (fillPropsList props r) p = some (JVal.obj mv) := by
                  rw [hRp]
                  simp only [fillStep_eq, hlk, hBprops, hBdef]
                  rw [if_pos (by decide), hfo]
                  exact lookupK_setK_self r p _
                simp only [fillStep_eq, hv, hBprops, hBdef]
                rw [if_pos (by decide), hfo]
                exact setK_lookup_eq_self _ _ _ hv
            | bool b =>
                have hdne : ∀ dd, lookupK psf "default" ≠ some (JVal.obj dd) := by
                  intro dd hc
                  have hgd2 : lookupK psf "default" = some (JVal.bool b) := hgd
                  rw [hgd2] at hc
                  injection hc with h
                  exact JVal.noConfusion h
                have hfo : fillObjectDefaults (JVal.obj psf) (JVal.obj mv)
                    = JVal.obj mv := fillObjectDefaults_flat_nodef mv hnp hdne
                have hv : lookupK (fillPropsList props r) p = some (JVal.obj mv) := by
                  rw [hRp]
                  simp only [fillStep_eq, hlk, hBprops, hBdef]
                  rw [if_pos (by decide), hfo]
                  exact lookupK_setK_self r p _
                simp only [fillStep_eq, hv, hBprops, hBdef]
                rw [if_pos (by decide), hfo]
                exact setK_lookup_eq_self _ _ _ hv
            | num n =>
                have hdne : ∀ dd, lookupK psf "default" ≠ some (JVal.obj dd) := by
                  intro dd hc
                  have hgd2 : lookupK psf "default" = some (JVal.num n) := hgd
                  rw [hgd2] at hc
                  injection hc with h
                  exact JVal.noConfusion h
                have hfo : fillObjectDefaults (JVal.obj psf) (JVal.obj mv)
                    = JVal.obj mv := fillObjectDefaults_flat_nodef mv hnp hdne
                have hv : lookupK (fillPropsList props r) p = some (JVal.obj mv) := by
                  rw [hRp]
                  simp only [fillStep_eq, hlk, hBprops, hBdef]
                  rw [if_pos (by decide), hfo]
                  exact lookupK_setK_self r p _
                simp only [fillStep_eq, hv, hBprops, hBdef]
                rw [if_pos (by decide), hfo]
                exact setK_lookup_eq_self _ _ _ hv
            | str s =>
                have hdne : ∀ dd, lookupK psf "default" ≠ some (JVal.obj dd) := by
                  intro dd hc
                  have hgd2 : lookupK psf "default" = some (JVal.str s) := hgd
                  rw [hgd2] at hc
                  injection hc with h
                  exact JVal.noConfusion h
                have hfo : fillObjectDefaults (JVal.obj psf) (JVal.obj mv)
                    = JVal.obj mv := fillObjectDefaults_flat_nodef mv hnp hdne
                have hv : lookupK (fillPropsList props r) p = some (JVal.obj mv) := by
                  rw [hRp]
                  simp only [fillStep_eq, hlk, hBprops, hBdef]
                  rw [if_pos (by decide), hfo]
                  exact lookupK_setK_self r p _
                simp only [fillStep_eq, hv, hBprops, hBdef]
                rw [if_pos (by decide), hfo]
                exact setK_lookup_eq_self _ _ _ hv
            | arr xs =>
                have hdne : ∀ dd, lookupK psf "default" ≠ some (JVal.obj dd) := by
                  intro dd hc
                  have hgd2 : lookupK psf "default" = some (JVal.arr xs) := hgd
                  rw [hgd2] at hc
                  injection hc with h
                  exact JVal.noConfusion h
                have hfo : fillObjectDefaults (JVal.obj psf) (JVal.obj mv)
                    = JVal.obj mv := fillObjectDefaults_flat_nodef mv hnp hdne
                have hv : lookupK (fillPropsList props r) p = some (JVal.obj mv) := by
                  rw [hRp]
                  simp only [fillStep_eq, hlk, hBprops, hBdef]
                  rw [if_pos (by decide), hfo]
                  exact lookupK_setK_self r p _
                simp only [fillStep_eq, hv, hBprops, hBdef]
                rw [if_pos (by decide), hfo]
                exact setK_lookup_eq_self _ _ _ hv
          · rw [Bool.not_eq_true] at hBdef
            have hv : lookupK (fillPropsList props r) p = some (JVal.obj mv) := by
              rw [hRp]
              simp only [fillStep_eq, hlk, hBprops, hBdef]
              rw [if_neg (by decide)]
              exact hlk
            simp only [fillStep_eq, hv, hBprops, hBdef]
            rw [if_neg (by decide)]
      | null =>
          have hv : lookupK (fillPropsList props r) p = some JVal.null := by
            rw [hRp]
            simp only [fillStep_eq, hlk]
          simp only [fillStep_eq, hv]
      | bool b =>
          have hv : lookupK (fillPropsList props r) p = some (JVal.bool b) := by
            rw [hRp]
            simp only [fillStep_eq, hlk]
          simp only [fillStep_eq, hv]
      | num n =>
          have hv : lookupK (fillPropsList props r) p = some (JVal.num n) := by
            rw [hRp]
            simp only [fillStep_eq, hlk]
          simp only [fillStep_eq, hv]
      | str s =>
          have hv : lookupK (fillPropsList props r) p = some (JVal.str s) := by
            rw [hRp]
            simp only [fillStep_eq, hlk]
          simp only [fillStep_eq, hv]
      | arr xs =>
          have hv : lookupK (fillPropsList props r) p = some (JVal.arr xs) := by
            rw [hRp]
            simp only [fillStep_eq, hlk]
          simp only [fillStep_eq, hv]

/-- The flat-schema side condition of the amended idempotence claim: the
schema has no `properties` entry at all, or every declared property schema
is an object without its own nested `properties`. -/
def flatSchema (s : JVal) : Bool :=
  match getJ s "properties" with
  | some (.obj props) => flatPropSchemas props
  | _ => true

/-- **C8** (amended): `fill_default_args` is idempotent on flat schemas.
When the tool schema and the argument dict are well-formed JSON objects
(pairwise-distinct keys throughout, as Python dicts guarantee) and no
declared property schema carries its own nested `properties` entry,
applying `fill_default_args` a second time with the same schema leaves the
result unchanged. The unrestricted claim is refuted below: a schema whose
property carries both a `default` and nested `properties` makes the first
pass insert the default verbatim and the second pass recursively fill it. -/
theorem fillDefaultArgs_idempotent_flat (s : JVal) (args : List (String × JVal))
    (hwfs : wfJ s = true) (hwfargs : wfJF args = true)
    (hflat : flatSchema s = true) :
    fillDefaultArgs s (fillDefaultArgs s args) = fillDefaultArgs s args := by
  cases hgp : getJ s "properties" with
  | none => simp only [fillDefaultArgs, hgp]
  | some pv =>
      cases pv with
      | obj props =>
          by_cases he : props.isEmpty = true
          · simp only [fillDefaultArgs, hgp, he, if_true]
          · rw [Bool.not_eq_true] at he
            simp only [fillDefaultArgs, hgp, he, Bool.false_eq_true, if_false]
            have hflatp : flatPropSchemas props = true := by
              rw [flatSchema, hgp] at hflat
              exact hflat
            obtain ⟨hndprops, hwfprops⟩ := wfJ_obj_parts (wfJ_getJ hwfs hgp)
            apply fillPropsList_fixed
            intro kv hkv
            obtain ⟨p, ps⟩ := kv
            exact fillStep_fixed_after hflatp hwfprops hwfargs hkv hndprops
      | null => simp only [fillDefaultArgs, hgp]
      | bool b => simp only [fillDefaultArgs, hgp]
      | num n => simp only [fillDefaultArgs, hgp]
      | str st => simp only [fillDefaultArgs, hgp]
      | arr xs => simp only [fillDefaultArgs, hgp]

/-- A flat concrete schema with a scalar default and an object default, run
against arguments that already hold one of the parameters. -/
def W8s : JVal :=
  .obj [("properties", .obj [
    ("mode", .obj [("type", .str "string"), ("default", .str "fast")]),
    ("opts", .obj [("type", .str "object"),
      ("default", .obj [("depth", .num 2), ("verbose", .bool false)])])])]

/-- Concrete arguments for the idempotence witness. -/
def W8args : List (String × JVal) :=
  [("extra", .bool true), ("opts", .obj [("depth", .num 5)])]

/-- Witness for C8: the amended idempotence theorem applied to a concrete
flat schema and argument dict, with every hypothesis discharged by
evaluation. -/
theorem fillDefaultArgs_idempotent_flat_witness :
    wfJ W8s = true ∧ wfJF W8args = true ∧ flatSchema W8s = true ∧
    fillDefaultArgs W8s (fillDefaultArgs W8s W8args) = fillDefaultArgs W8s W8args :=
  ⟨by decide, by decide, by decide,
    fillDefaultArgs_idempotent_flat W8s W8args (by decide) (by decide) (by decide)⟩

/-- A schema whose single parameter carries both a `default` and its own
nested `properties`: the shape on which `fill_default_args` is not
idempotent. -/
def CexS8 : JVal :=
  .obj [("properties", .obj [("opt", .obj [
    ("default", .obj []),
    ("properties", .obj [("x", .obj [("default", .num 1)])])])])]

/-- Counterexample for C8 as stated: the first application of
`fill_default_args` inserts the declared default verbatim (the
absent-parameter branch does not recurse), while the second application
finds the parameter present and recursively fills the nested default
`x = 1`, so the two results differ. -/
theorem fillDefaultArgs_not_idempotent_cex :
    fillDefaultArgs CexS8 (fillDefaultArgs CexS8 []) ≠ fillDefaultArgs CexS8 [] ∧
    fillDefaultArgs CexS8 [] = [("opt", JVal.obj [])] ∧
    fillDefaultArgs CexS8 (fillDefaultArgs CexS8 [])
      = [("opt", JVal.obj [("x", JVal.num 1)])] := by
  have h1 : fillDefaultArgs CexS8 [] = [("opt", JVal.obj [])] := by
    simp [CexS8, fillDefaultArgs, fillPropsList, fillStep, fillObjectDefaults,
      getJ, lookupK, setK, updateK, hasJ, hasK]
  have h2 : fillDefaultArgs CexS8 [("opt", JVal.obj [])]
      = [("opt", JVal.obj [("x", JVal.num 1)])] := by
    simp [CexS8, fillDefaultArgs, fillPropsList, fillStep, fillObjectDefaults,
      getJ, lookupK, setK, updateK, hasJ, hasK]
  refine ⟨?_, h1, ?_⟩
  · rw [h1, h2]
    decide
  · rw [h1]
    exact h2

/-- Counterexample for C9 as stated: the bridge callbacks do not *never*
raise. For a registered handle over `{"k": [[<dict at address 1>]]}`,
`_js_dict_get("ctx", "k")` wraps only top-level list items as proxy markers;
the dict nested inside the inner list stays a `DictProxy`, and the
`json.dumps` call on the item list raises `TypeError` to the guest. -/
theorem jsDictGet_nested_list_raises_cex :
    (jsDictGet ⟨[("ctx", .mk 0 "ctx" [])], []⟩
        [[("k", .list [.list [.ref 1]])], [("x", .int 1)]] "ctx" "k").1
      = .error "TypeError: Object of type DictProxy is not JSON serializable" := by
  rfl

end Backend
